import Mathlib

/-!
# Verification of the MavLogParser core

A shallow embedding of the MAVLink binary-log parser:

* `Parser.messages` / `Parser._extract_format_def` / `Parser._decode_messages`
  from `business_logic/parser.py` become `messagesAux` / `extractFormatDef` /
  `decodeMessages`;
* `is_valid_message_header` from `src/utils/helpers.py` becomes
  `isValidMessageHeader`;
* `ParallelParser.process_all` / `_split_to_chunks` / `_process_chunk` from
  `src/business_logic/parallel.py` become `processAll` / `splitToChunks` and
  the worker body inside `processAll`.

Bytes are modelled as `List Nat` (each entry a byte value), the memory map as
the whole list, and `mmap.find` as a linear scan.  Numeric field values are
`Int`; the results of Python's float divisions (`/ 100.0`, `/ 1e7`) are
modelled as exact rational numbers; `float32`/`float64` payload fields are
kept as their raw little-endian bit patterns (the decoder only ever passes
them through unchanged).  Python configuration values come from the
repository's configuration defaults (`MSG_HEADER = a3 95`,
`FORMAT_MSG_TYPE = 0x80`, `FORMAT_MSG_LENGTH = 89`, the format-character
table, `SCALE_FACTOR_FIELDS = {c,C,e,E}`, `LATITUDE_LONGITUDE_FORMAT = L`,
`BYTES_FIELDS = {Data, Blob, Payload}`, `FMT_STRUCT = <2sBBB4s16s64s`),
recorded verbatim in `business_logic/utils/constants.py`.

All recursive scans are written with explicit fuel so that every definition
computes by kernel reduction; the fuel supplied at top level
(`image length + 1`) is shown sufficient where a claim needs it.
-/

namespace MavLog

/-- The two sync bytes introducing every record (`MSG_HEADER = b"\xa3\x95"`). -/
def MSG_HEADER : List Nat := [163, 149]

/-- Reserved type id of FORMAT records (`FORMAT_MSG_TYPE = 0x80`). -/
def FORMAT_MSG_TYPE : Nat := 128

/-- Fixed wire length of a FORMAT record (`FORMAT_MSG_LENGTH = 89`). -/
def FORMAT_MSG_LENGTH : Nat := 89

/-- Format characters whose integer value is divided by 100
(`SCALE_FACTOR_FIELDS = {"c", "C", "e", "E"}`). -/
def SCALE_FACTOR_FIELDS : List Char := ['c', 'C', 'e', 'E']

/-- The latitude/longitude format character (`LATITUDE_LONGITUDE_FORMAT = "L"`). -/
def LATITUDE_LONGITUDE_FORMAT : Char := 'L'

/-- Column names whose raw bytes are passed through untouched
(`BYTES_FIELDS = {"Data", "Blob", "Payload"}`). -/
def BYTES_FIELDS : List String := ["Data", "Blob", "Payload"]

/-- Byte width consumed by one format character, per `FORMAT_MAPPING`
(struct codes: a→32h, b→b, B→B, h→h, H→H, i→i, I→I, f→f, d→d, n→4s,
N→16s, Z→64s, c→h, C→H, e→i, E→I, L→i, M→B, q→q, Q→Q); `none` for a
character absent from the table. -/
def charSize (c : Char) : Option Nat :=
  if c = 'b' ∨ c = 'B' ∨ c = 'M' then some 1
  else if c = 'h' ∨ c = 'H' ∨ c = 'c' ∨ c = 'C' then some 2
  else if c = 'i' ∨ c = 'I' ∨ c = 'e' ∨ c = 'E' ∨ c = 'L' ∨ c = 'f' ∨ c = 'n' then some 4
  else if c = 'q' ∨ c = 'Q' ∨ c = 'd' then some 8
  else if c = 'N' then some 16
  else if c = 'Z' ∨ c = 'a' then some 64
  else none

/-- Total byte size of a struct built from a format string;
`none` if some character is not in `FORMAT_MAPPING` (Python raises
`KeyError` while building the `Struct`). -/
def structSize : List Char → Option Nat
  | [] => some 0
  | c :: cs =>
    match charSize c, structSize cs with
    | some a, some b => some (a + b)
    | _, _ => none

/-- A decoded field value.  Integers are exact; results of Python's float
divisions are exact rationals; `f32`/`f64` carry the raw little-endian bit
pattern of a float payload (only ever passed through); `bytes` and `str`
mirror Python `bytes` and `str` values. -/
inductive Value where
  | int (i : Int)
  | float (q : ℚ)
  | f32 (bits : Nat)
  | f64 (bits : Nat)
  | bytes (bs : List Nat)
  | str (s : String)
deriving DecidableEq, Repr

/-- A decoded record: an insertion-ordered mapping from key to value. -/
abbrev Message := List (String × Value)

/-- A format definition as stored in `Parser.format_defs`
(`Name`, `Length`, `Format`, `Columns`; the compiled `Struct` is a pure
function of `Format` and is recomputed from it wherever needed). -/
structure FormatDef where
  name : String
  length : Nat
  format : List Char
  columns : List String
deriving DecidableEq, Repr

/-- The format dictionary, type id → format definition. -/
def FmtDict := Nat → Option FormatDef

/-- `format_defs[t] = fd` (replace-on-put). -/
def put (d : FmtDict) (t : Nat) (fd : FormatDef) : FmtDict :=
  fun u => if u = t then some fd else d u

/-- The empty format dictionary (session start). -/
def emptyDict : FmtDict := fun _ => none

/-- Little-endian value of a byte list. -/
def leVal (bs : List Nat) : Nat := bs.foldr (fun b acc => b + 256 * acc) 0

/-- Two's-complement reading of a `w`-byte little-endian value. -/
def toSigned (w : Nat) (n : Nat) : Int :=
  if n < 2 ^ (8 * w - 1) then (n : Int) else (n : Int) - 2 ^ (8 * w)

/-- The slice `data[off : off + n]` when fully in bounds, else `none`
(struct unpacking demands the full width). -/
def bytesAt (data : List Nat) (off n : Nat) : Option (List Nat) :=
  if off + n ≤ data.length then some ((data.drop off).take n) else none

/-- Unpack a run of 16-bit signed little-endian integers (the `a` format
character, struct code `32h`, flattens into 32 separate values). -/
def int16Run : List Nat → List Value
  | b0 :: b1 :: rest => .int (toSigned 2 (leVal [b0, b1])) :: int16Run rest
  | _ => []

/-- Unpack the bytes of a single format character. -/
def unpackChar (c : Char) (bs : List Nat) : List Value :=
  if c = 'b' then [.int (toSigned 1 (leVal bs))]
  else if c = 'B' ∨ c = 'M' then [.int (leVal bs)]
  else if c = 'h' ∨ c = 'c' then [.int (toSigned 2 (leVal bs))]
  else if c = 'H' ∨ c = 'C' then [.int (leVal bs)]
  else if c = 'i' ∨ c = 'e' ∨ c = 'L' then [.int (toSigned 4 (leVal bs))]
  else if c = 'I' ∨ c = 'E' then [.int (leVal bs)]
  else if c = 'q' then [.int (toSigned 8 (leVal bs))]
  else if c = 'Q' then [.int (leVal bs)]
  else if c = 'f' then [.f32 (leVal bs)]
  else if c = 'd' then [.f64 (leVal bs)]
  else if c = 'n' ∨ c = 'N' ∨ c = 'Z' then [.bytes bs]
  else if c = 'a' then int16Run bs
  else []

/-- Unpack a well-sized byte run field by field. -/
def unpackBytes : List Char → List Nat → List Value
  | [], _ => []
  | c :: cs, bs =>
    match charSize c with
    | some k => unpackChar c (bs.take k) ++ unpackBytes cs (bs.drop k)
    | none => []

/-- `Struct.unpack_from(data, off)` for the struct of a format string:
fails (`struct.error`) when fewer than the struct's size bytes remain. -/
def unpackFrom (fmt : List Char) (data : List Nat) (off : Nat) : Option (List Value) :=
  match structSize fmt with
  | none => none
  | some sz => (bytesAt data off sz).map (unpackBytes fmt)

/-- Python whitespace test restricted to the ASCII range
(`str.strip` strips 0x09–0x0d, 0x1c–0x1f and space). -/
def pyIsSpace (c : Char) : Bool :=
  (9 ≤ c.toNat && c.toNat ≤ 13) || (28 ≤ c.toNat && c.toNat ≤ 31) || c.toNat == 32

/-- `bytes_data[:first NUL]` (the whole list when no NUL occurs). -/
def takeToNull (bs : List Nat) : List Nat := bs.takeWhile (fun b => b ≠ 0)

/-- `bytes.decode("ascii", "ignore")`: keep bytes below 128 as characters. -/
def asciiIgnore (bs : List Nat) : List Char :=
  (bs.filter (fun b => b < 128)).map Char.ofNat

/-- Python `str.strip()`. -/
def pyStrip (cs : List Char) : List Char :=
  ((cs.dropWhile pyIsSpace).reverse.dropWhile pyIsSpace).reverse

/-- `Parser._bytes_to_ascii`: trim at the first NUL, decode ASCII with
invalid bytes ignored, strip whitespace. -/
def bytesToAscii (bs : List Nat) : String :=
  ⟨pyStrip (asciiIgnore (takeToNull bs))⟩

/-- Parse the columns field: prefix before the first NUL, ASCII-decoded,
split on commas, each stripped, empties dropped. -/
def parseColumns (bs : List Nat) : List String :=
  (((asciiIgnore (takeToNull bs)).splitOn ',').map pyStrip).filter
    (fun l => l ≠ []) |>.map (fun l => String.mk l)

/-- The normalized FORMAT record emitted for a decoded FORMAT frame. -/
def fmtMessage (t : Nat) (name : String) (len : Nat) (fmt : List Char)
    (cols : List String) : Message :=
  [("mavpackettype", .str "FMT"), ("Type", .int t), ("Name", .str name),
   ("Length", .int len), ("Format", .str ⟨fmt⟩),
   ("Columns", .str (String.intercalate "," cols))]

/-- `Parser._extract_format_def` applied to the 89 bytes of a FORMAT frame
(struct layout `<2sBBB4s16s64s`): yields the declared type id, the format
definition that is installed, and the normalized FORMAT record; `none` when a
field is empty after trimming or a format character is absent from
`FORMAT_MAPPING` (the `Struct` construction raises before installing). -/
def parseFmtBytes (fb : List Nat) : Option (Nat × FormatDef × Message) :=
  let msgType := fb.getD 3 0
  let len := fb.getD 4 0
  let name := bytesToAscii ((fb.drop 5).take 4)
  let fmt := pyStrip (asciiIgnore (takeToNull ((fb.drop 9).take 16)))
  let cols := parseColumns ((fb.drop 25).take 64)
  if name = "" ∨ fmt = [] ∨ cols = [] then none
  else if fmt.all (fun c => (charSize c).isSome) then
    some (msgType, ⟨name, len, fmt, cols⟩, fmtMessage msgType name len fmt cols)
  else none

/-- `Parser._extract_format_def` at an absolute offset: the fixed-layout
unpack reads `FORMAT_MSG_LENGTH` bytes and raises (caught, `none`) when they
extend past the end of the image. -/
def extractFormatDef (data : List Nat) (p : Nat) : Option (Nat × FormatDef × Message) :=
  match bytesAt data p FORMAT_MSG_LENGTH with
  | none => none
  | some fb => parseFmtBytes fb

/-- One field of `Parser._decode_messages`: passthrough raw bytes for a `Z`
field whose column is in `BYTES_FIELDS`; other byte fields are
trailing-NUL-stripped and ASCII-decoded; `c,C,e,E` integers are divided by
100; `L` integers by 1e7; everything else passes through. -/
def decodeField (fmt : Char) (col : String) (v : Value) : Value :=
  match v with
  | .bytes bs =>
    if fmt = 'Z' ∧ col ∈ BYTES_FIELDS then .bytes bs
    else .str ⟨asciiIgnore ((bs.reverse.dropWhile (fun b => b = 0)).reverse)⟩
  | v =>
    if fmt ∈ SCALE_FACTOR_FIELDS then
      match v with
      | .int i => .float ((i : ℚ) / 100)
      | .float q => .float (q / 100)
      | v => v
    else if fmt = LATITUDE_LONGITUDE_FORMAT then
      match v with
      | .int i => .float ((i : ℚ) / 10000000)
      | .float q => .float (q / 10000000)
      | v => v
    else v

/-- `zip(format, columns, unpacked)` with per-field decoding. -/
def zipFields : List Char → List String → List Value → List (String × Value)
  | f :: fs, c :: cs, v :: vs => (c, decodeField f c v) :: zipFields fs cs vs
  | _, _, _ => []

/-- `Parser._decode_messages`: the `mavpackettype` key first, then the
decoded fields in column order. -/
def decodeMessages (msgType : String) (fd : FormatDef) (vals : List Value) : Message :=
  ("mavpackettype", .str msgType) :: zipFields fd.format fd.columns vals

/-- Does the two-byte sync pattern sit at `p`? (`data[p:p+2] == MSG_HEADER`.) -/
def headerAt (data : List Nat) (p : Nat) : Bool :=
  (data.drop p).take MSG_HEADER.length == MSG_HEADER

/-- Search positions `start, start+1, …` for the sync pattern
(bounded by the given countdown). -/
def findFromAux (data : List Nat) : Nat → Nat → Option Nat
  | 0, _ => none
  | n + 1, start => if headerAt data start then some start else findFromAux data n (start + 1)

/-- `data.find(MSG_HEADER, start)`: the least `p ≥ start` where the sync
pattern occurs (`none` for Python's `-1`). -/
def findFrom (data : List Nat) (start : Nat) : Option Nat :=
  findFromAux data (data.length - start) start

/-- `is_valid_message_header(data, pos, fmt_defs)` from `src/utils/helpers.py`:
sync at `pos` with `pos + 2 < len(data)`, and either the FORMAT type id or a
known type id whose full frame fits in the image. -/
def isValidMessageHeader (data : List Nat) (pos : Nat) (d : FmtDict) : Bool :=
  if pos + 2 ≥ data.length ∨ ¬ headerAt data pos then false
  else
    match data[pos + 2]? with
    | none => false
    | some msgId =>
      if msgId = FORMAT_MSG_TYPE then true
      else
        match d msgId with
        | some fd => decide (pos + fd.length ≤ data.length)
        | none => false

/-- Outcome of one iteration of the `Parser.messages` loop body. -/
inductive StepResult where
  | stop
  | skip (newOffset : Nat) (newDict : FmtDict)
  | emit (pos : Nat) (msg : Message) (newOffset : Nat) (newDict : FmtDict)

/-- Does the type filter admit FORMAT records?
(`message_type in (None, "FMT")`.) -/
def admitsFMT (mt : Option String) : Bool :=
  mt == none || mt == some "FMT"

/-- `message_type and msg_format["Name"] != message_type`
(a set, non-empty filter that differs from the record's name). -/
def filterSkips (mt : Option String) (name : String) : Bool :=
  match mt with
  | none => false
  | some s => !(s == "") && !(name == s)

/-- One iteration of the `Parser.messages` while-loop body: locate the next
sync, classify, update the format dictionary on FORMAT frames, decode or
skip, and report the new cursor; `stop` models the `break` paths
(no sync found / id byte past the end / frame end past the end). -/
def step (data : List Nat) (mt : Option String) (offset : Nat) (d : FmtDict) : StepResult :=
  match findFrom data offset with
  | none => .stop
  | some p =>
    match data[p + 2]? with
    | none => .stop
    | some msgId =>
      if msgId = FORMAT_MSG_TYPE then
        match extractFormatDef data p with
        | some (t, fd, msg) =>
          if admitsFMT mt then .emit p msg (p + FORMAT_MSG_LENGTH) (put d t fd)
          else .skip (p + FORMAT_MSG_LENGTH) (put d t fd)
        | none => .skip (p + 1) d
      else
        match d msgId with
        | none => .skip (p + 1) d
        | some fd =>
          if filterSkips mt fd.name then .skip (p + fd.length) d
          else if data.length < p + fd.length then .stop
          else
            match unpackFrom fd.format data (p + 3) with
            | none => .skip (p + 1) d
            | some vals => .emit p (decodeMessages fd.name fd vals) (p + fd.length) d

/-- The while-loop guard of `Parser.messages`:
`offset < data_len and ((not end_index) or (offset < end_index))`
(a zero `end_index` is falsy). -/
def loopCond (dataLen : Nat) (endIdx : Option Nat) (offset : Nat) : Bool :=
  decide (offset < dataLen) &&
    (match endIdx with
     | none => true
     | some e => (e == 0) || decide (offset < e))

/-- The `Parser.messages` loop: iterate `step` while the guard holds,
collecting `(position, record)` pairs, and return the final format
dictionary. -/
def messagesAux (data : List Nat) (mt : Option String) (endIdx : Option Nat) :
    Nat → Nat → FmtDict → List (Nat × Message) × FmtDict
  | 0, _, d => ([], d)
  | fuel + 1, offset, d =>
    if loopCond data.length endIdx offset then
      match step data mt offset d with
      | .stop => ([], d)
      | .skip off' d' => messagesAux data mt endIdx fuel off' d'
      | .emit p msg off' d' =>
        let rest := messagesAux data mt endIdx fuel off' d'
        ((p, msg) :: rest.1, rest.2)
    else ([], d)

/-- `Parser.messages(message_type, end_index)` run to exhaustion from a given
cursor and format dictionary (fuel `length + 1` covers every terminating
run, since the cursor strictly advances each iteration). -/
def parserMessages (data : List Nat) (mt : Option String) (endIdx : Option Nat)
    (off0 : Nat) (d0 : FmtDict) : List Message :=
  ((messagesAux data mt endIdx (data.length + 1) off0 d0).1).map Prod.snd

/-- The format dictionary left behind by a full `Parser.messages` run. -/
def finalDefs (data : List Nat) (mt : Option String) : FmtDict :=
  (messagesAux data mt none (data.length + 1) 0 emptyDict).2

/-- The header-skipping search of `ParallelParser._split_to_chunks`:
`find(MSG_HEADER, start)`, then advance by the header length past sync
matches that are not valid message headers. -/
def findValidFromAux (data : List Nat) (d : FmtDict) : Nat → Nat → Option Nat
  | 0, _ => none
  | n + 1, start =>
    match findFrom data start with
    | none => none
    | some p =>
      if isValidMessageHeader data p d then some p
      else findValidFromAux data d n (p + MSG_HEADER.length)

/-- First valid message header at or after `start`. -/
def findValidFrom (data : List Nat) (d : FmtDict) (start : Nat) : Option Nat :=
  findValidFromAux data d (data.length + 1) start

/-- The chunk-emitting loop of `ParallelParser._split_to_chunks`: each chunk
runs from the current valid header to the next valid header at or beyond
`pos + chunkSize` (or to the end of the image). -/
def chunkLoop (data : List Nat) (d : FmtDict) (chunkSize : Nat) :
    Nat → Nat → List (Nat × Nat)
  | 0, _ => []
  | fuel + 1, pos =>
    if pos < data.length then
      let e := min (pos + chunkSize) data.length
      let nxt := (findValidFrom data d e).getD data.length
      (pos, nxt) :: chunkLoop data d chunkSize fuel nxt
    else []

/-- `ParallelParser._split_to_chunks`: reject empty images, seek the first
valid header, then split at valid-header boundaries with nominal chunk size
`max(size // max_workers, 10 MiB)`. -/
def splitToChunks (data : List Nat) (d : FmtDict) (maxWorkers : Nat) :
    Except String (List (Nat × Nat)) :=
  if data.length = 0 then .error "Log file is empty."
  else
    let chunkSize := max (data.length / maxWorkers) (10 * 1024 * 1024)
    match findValidFrom data d 0 with
    | none => .error "No valid message headers found in file."
    | some p0 => .ok (chunkLoop data d chunkSize (data.length + 1) p0)

/-- `ParallelParser.process_all`: a single-threaded FMT prelude over the whole
image, chunking with the fully-populated dictionary, one `Parser.messages`
run per chunk seeded with the dictionary snapshot (`_process_chunk`; the
snapshot round-trip rebuilds each `Struct` from the same format string, so it
is the identity here), and concatenation of per-chunk results in chunk
order. -/
def processAll (data : List Nat) (maxWorkers : Nat) (mt : Option String) :
    Except String (List Message) :=
  let dFull := finalDefs data (some "FMT")
  match splitToChunks data dFull maxWorkers with
  | .error e => .error e
  | .ok chunks =>
    if chunks = [] then .error "No chunks to process."
    else .ok ((chunks.map (fun c => parserMessages data mt (some c.2) c.1 dFull)).flatten)

/-- The byte-field decode of
`processing_parser/parser.py::Parser._decode_message_fields` (the dict
comprehension): a non-passthrough bytes value is truncated at
`val.find(b"\x00")` — the prefix before the first NUL, or all but the last
byte when no NUL occurs (`find` returns −1) — then ASCII-decoded. -/
def decodeFieldPP (fmt : Char) (col : String) (v : Value) : Value :=
  match v with
  | .bytes bs =>
    if fmt = 'Z' ∧ col ∈ BYTES_FIELDS then .bytes bs
    else
      .str ⟨asciiIgnore
        (match (bs.findIdx? (fun b => b = 0)) with
         | some i => bs.take i
         | none => bs.take (bs.length - 1))⟩
  | .int i =>
    if fmt ∈ SCALE_FACTOR_FIELDS then .float ((i : ℚ) / 100)
    else if fmt = LATITUDE_LONGITUDE_FORMAT then .float ((i : ℚ) / 10000000)
    else .int i
  | v => v

/-! ## Basic facts about the loop guard and the scan -/

theorem messagesAux_endIdx_zero (data : List Nat) (mt : Option String) :
    ∀ fuel off d, messagesAux data mt (some 0) fuel off d =
      messagesAux data mt none fuel off d
  | 0, _, _ => rfl
  | fuel + 1, off, d => by
    have hc : loopCond data.length (some 0) off = loopCond data.length none off := by
      simp [loopCond]
    simp only [messagesAux, hc]
    cases step data mt off d <;>
      simp [messagesAux_endIdx_zero data mt fuel]

/-- **C10.** Calling `messages` with `end_index = 0` behaves identically to
calling it with no end bound: the guard `(not end_index) or (offset <
end_index)` treats the falsy `0` as an absent bound, so the scan covers the
whole image. -/
theorem c10_end_index_zero_is_no_bound (data : List Nat) (mt : Option String)
    (off : Nat) (d : FmtDict) :
    parserMessages data mt (some 0) off d = parserMessages data mt none off d := by
  unfold parserMessages
  rw [messagesAux_endIdx_zero]

/-! ## C8: cursor advance on an Unknown classification -/

/-- **C8 (amended).** When the frame locator finds a sync match at `p` whose
type id is neither `FORMAT_MSG_TYPE` nor a key of the format dictionary, it
advances the cursor by exactly **one** byte (`self.offset = position + 1`),
not by `len(sync)`. -/
theorem c8_unknown_id_advances_one_byte (data : List Nat) (mt : Option String)
    (off : Nat) (d : FmtDict) (p msgId : Nat)
    (hf : findFrom data off = some p) (hid : data[p + 2]? = some msgId)
    (hne : msgId ≠ FORMAT_MSG_TYPE) (hd : d msgId = none) :
    step data mt off d = .skip (p + 1) d := by
  simp [step, hf, hid, hne, hd]

/-- **C8 (counterexample).** On the image `a3 95 07 00 00` the id `0x07` is
unknown, and the cursor advances from the sync at 0 to 1 — which is not
`len(sync) = 2` bytes further. -/
theorem c8_counterexample :
    step [163, 149, 7, 0, 0] none 0 emptyDict = .skip 1 emptyDict ∧
      (1 : Nat) ≠ 0 + MSG_HEADER.length :=
  ⟨rfl, by decide⟩

theorem c8_unknown_id_advances_one_byte_witness :
    step [163, 149, 7, 0, 0] none 0 emptyDict = .skip (0 + 1) emptyDict :=
  c8_unknown_id_advances_one_byte [163, 149, 7, 0, 0] none 0 emptyDict 0 7
    rfl rfl (by decide) rfl

/-! ## C4: FORMAT-frame classification in the chunker's header check -/

/-- **C4 (amended).** For an offset whose type-id byte is `FORMAT_MSG_TYPE`,
`is_valid_message_header` classifies it as valid iff the sync pattern sits at
`p` (the id byte being readable already gives `p + 2 < image_length`); no
`p + FORMAT_MSG_LENGTH ≤ image_length` bound is checked. -/
theorem c4_format_header_ignores_length_bound (data : List Nat) (p : Nat)
    (d : FmtDict) (hid : data[p + 2]? = some FORMAT_MSG_TYPE) :
    isValidMessageHeader data p d = headerAt data p := by
  have hlt : p + 2 < data.length := (List.getElem?_eq_some.mp hid).1
  by_cases hh : headerAt data p
  · simp [isValidMessageHeader, hh, Nat.not_le_of_lt hlt, hid]
  · simp [isValidMessageHeader, hh]

/-- **C4 (counterexample).** On the 3-byte image `a3 95 80`, offset 0 carries
the FORMAT type id and its fixed-length frame would extend 86 bytes past the
end of the image, yet `is_valid_message_header` classifies it as a valid
FORMAT frame start. -/
theorem c4_counterexample :
    isValidMessageHeader [163, 149, 128] 0 emptyDict = true ∧
      ¬ (0 + FORMAT_MSG_LENGTH ≤ ([163, 149, 128] : List Nat).length) :=
  ⟨rfl, by decide⟩

theorem c4_format_header_ignores_length_bound_witness :
    isValidMessageHeader [163, 149, 128] 0 emptyDict = headerAt [163, 149, 128] 0 :=
  c4_format_header_ignores_length_bound [163, 149, 128] 0 emptyDict rfl

/-! ## C6: numeric scaling rules -/

/-- **C6.** Per decoded field: a centi-scaled character (`c,C,e,E`) turns the
raw integer into the exact value `i / 100`; the lat/lon character `L` into
`i / 1e7`; every other format character passes an integer value through
unscaled. -/
theorem c6_scaling_rules (col : String) (i : Int) :
    (∀ c ∈ SCALE_FACTOR_FIELDS, decodeField c col (.int i) = .float ((i : ℚ) / 100)) ∧
      decodeField LATITUDE_LONGITUDE_FORMAT col (.int i) =
        .float ((i : ℚ) / 10000000) ∧
      (∀ c, c ∉ SCALE_FACTOR_FIELDS → c ≠ LATITUDE_LONGITUDE_FORMAT →
        decodeField c col (.int i) = .int i) := by
  refine ⟨fun c hc => by simp [decodeField, hc], ?_, fun c hc hl => by
    simp [decodeField, hc, hl]⟩
  have : LATITUDE_LONGITUDE_FORMAT ∉ SCALE_FACTOR_FIELDS := by decide
  simp [decodeField, this]

theorem c6_scaling_rules_witness :
    decodeField 'c' "Alt" (.int 1000) = .float ((1000 : ℚ) / 100) ∧
      decodeField 'L' "Lat" (.int 376543210) = .float ((376543210 : ℚ) / 10000000) ∧
      decodeField 'B' "X" (.int 255) = .int 255 :=
  ⟨(c6_scaling_rules "Alt" 1000).1 'c' (by decide),
   (c6_scaling_rules "Lat" 376543210).2.1,
   (c6_scaling_rules "X" 255).2.2 'B' (by decide) (by decide)⟩

/-! ## C5: byte-field decoding -/

/-- **C5.** The two cited field decoders disagree on non-passthrough byte
fields: `business_logic/parser.py` strips trailing NULs (`b"ABCD"` →
`"ABCD"`, as the spec states), while the dict-comprehension rewrite in
`processing_parser/parser.py` truncates at `val.find(b"\x00")` and, when no
NUL is present, `find` returns −1 and `val[:-1]` silently drops the final
byte (`b"ABCD"` → `"ABC"`); both agree on the `Z`-passthrough case. -/
theorem c5_bytes_field_decode :
    decodeField 'n' "Name" (.bytes [65, 66, 67, 68]) = .str "ABCD" ∧
      decodeFieldPP 'n' "Name" (.bytes [65, 66, 67, 68]) = .str "ABC" ∧
      decodeField 'n' "Name" (.bytes [65, 66, 0, 0]) = .str "AB" ∧
      decodeFieldPP 'Z' "Data" (.bytes [1, 2, 0, 3]) = .bytes [1, 2, 0, 3] ∧
      decodeField 'Z' "Data" (.bytes [1, 2, 0, 3]) = .bytes [1, 2, 0, 3] := by
  refine ⟨?_, ?_, ?_, ?_, ?_⟩ <;> decide

/-! ## C2: invariants of installed format definitions -/

/-- Well-formedness `_extract_format_def` actually enforces before
installing: non-empty name, format and columns, and every format character
present in the configuration's format-character map. -/
def FDefWF (fd : FormatDef) : Prop :=
  fd.name ≠ "" ∧ fd.format ≠ [] ∧ fd.columns ≠ [] ∧
    ∀ c ∈ fd.format, (charSize c).isSome

/-- Unfolding lemma for one iteration of the scan loop. -/
theorem messagesAux_succ (data : List Nat) (mt : Option String) (eIdx : Option Nat)
    (fuel off : Nat) (d : FmtDict) :
    messagesAux data mt eIdx (fuel + 1) off d =
      if loopCond data.length eIdx off then
        match step data mt off d with
        | .stop => ([], d)
        | .skip o' d' => messagesAux data mt eIdx fuel o' d'
        | .emit p msg o' d' =>
          ((p, msg) :: (messagesAux data mt eIdx fuel o' d').1,
            (messagesAux data mt eIdx fuel o' d').2)
      else ([], d) := rfl

theorem parseFmtBytes_wf {fb : List Nat} {t : Nat} {fd : FormatDef} {m : Message}
    (h : parseFmtBytes fb = some (t, fd, m)) : FDefWF fd := by
  simp only [parseFmtBytes] at h
  split at h
  · exact absurd h (by simp)
  · rename_i hne
    split at h
    · rename_i hall
      push_neg at hne
      obtain ⟨h1, h2, h3⟩ := hne
      simp only [Option.some.injEq, Prod.mk.injEq] at h
      obtain ⟨ht, hfd, hm⟩ := h
      subst hfd
      refine ⟨h1, h2, h3, fun c hc => ?_⟩
      exact List.all_eq_true.mp hall c hc
    · exact absurd h (by simp)

theorem extractFormatDef_wf {data : List Nat} {p t : Nat} {fd : FormatDef}
    {m : Message} (h : extractFormatDef data p = some (t, fd, m)) : FDefWF fd := by
  unfold extractFormatDef at h
  split at h
  · exact absurd h (by simp)
  · exact parseFmtBytes_wf h

/-- The format dictionary a `step` leaves behind. -/
def StepResult.dict (r : StepResult) (d : FmtDict) : FmtDict :=
  match r with
  | .stop => d
  | .skip _ d' => d'
  | .emit _ _ _ d' => d'

/-- A step either keeps the dictionary or installs one successfully parsed
format definition. -/
theorem step_dict_characterization (data : List Nat) (mt : Option String)
    (off : Nat) (d : FmtDict) :
    (step data mt off d).dict d = d ∨
      ∃ p t fd m, extractFormatDef data p = some (t, fd, m) ∧
        (step data mt off d).dict d = put d t fd := by
  unfold step
  repeat' split
  all_goals
    first
      | exact Or.inl rfl
      | (rename_i heq _; exact Or.inr ⟨_, _, _, _, heq, rfl⟩)

/-- Every entry of the dictionary after a scan was either present at the
start or comes from a successfully parsed FORMAT frame of the image. -/
theorem messagesAux_dict_entries (data : List Nat) (mt : Option String)
    (e : Option Nat) :
    ∀ (fuel off : Nat) (d0 : FmtDict) (t : Nat) (fd : FormatDef),
      (messagesAux data mt e fuel off d0).2 t = some fd →
      d0 t = some fd ∨ ∃ p m, extractFormatDef data p = some (t, fd, m)
  | 0, _, _, _, _ => fun h => .inl h
  | fuel + 1, off, d0, t, fd => by
    intro h
    rw [messagesAux_succ] at h
    by_cases hl : loopCond data.length e off
    · simp only [hl, if_true] at h
      have hput : ∀ d' : FmtDict,
          (d' = d0 ∨ ∃ p t' fd' m, extractFormatDef data p = some (t', fd', m) ∧
            d' = put d0 t' fd') →
          d' t = some fd →
          d0 t = some fd ∨ ∃ p m, extractFormatDef data p = some (t, fd, m) := by
        rintro d' (rfl | ⟨p, t', fd', m, hex, rfl⟩) h'
        · exact .inl h'
        · by_cases ht : t = t'
          · subst ht
            have heq : fd' = fd := by simpa [put] using h'
            subst heq
            exact .inr ⟨p, m, hex⟩
          · exact .inl (by simpa [put, ht] using h')
      cases hstep : step data mt off d0 with
      | stop => rw [hstep] at h; exact .inl h
      | skip o' d' =>
        rw [hstep] at h
        have hch := step_dict_characterization data mt off d0
        rw [hstep] at hch
        rcases messagesAux_dict_entries data mt e fuel o' d' t fd h with h' | h'
        · exact hput d' (by simpa [StepResult.dict] using hch) h'
        · exact .inr h'
      | emit p' msg o' d' =>
        rw [hstep] at h
        dsimp only at h
        have hch := step_dict_characterization data mt off d0
        rw [hstep] at hch
        rcases messagesAux_dict_entries data mt e fuel o' d' t fd h with h' | h'
        · exact hput d' (by simpa [StepResult.dict] using hch) h'
        · exact .inr h'
    · simp only [hl, if_false] at h
      exact .inl h

/-- **C2 (amended).** Every `FormatDef` installed during decoding has
non-empty name, format and columns, and every character of its format string
is a key of the Config Table's format-character map; the length equality
`len(format) = len(columns)` claimed by the spec is **not** enforced. -/
theorem c2_installed_defs_wf (data : List Nat) (mt : Option String)
    (e : Option Nat) (fuel off : Nat) (d0 : FmtDict)
    (h0 : ∀ t fd, d0 t = some fd → FDefWF fd) (t : Nat) (fd : FormatDef)
    (h : (messagesAux data mt e fuel off d0).2 t = some fd) : FDefWF fd := by
  rcases messagesAux_dict_entries data mt e fuel off d0 t fd h with h' | ⟨p, m, hp⟩
  · exact h0 _ _ h'
  · exact extractFormatDef_wf hp

/-- A FORMAT frame declaring type 7 with format string `"BB"` (two fields)
but a single column name `"A"`. -/
def imgC2 : List Nat :=
  [163, 149, 128, 7, 5] ++ [66, 65, 68, 0] ++ ([66, 66] ++ List.replicate 14 0) ++
    ([65] ++ List.replicate 63 0)

/-- **C2 (counterexample).** Decoding `imgC2` installs a `FormatDef` whose
format string has two characters but whose column list has one entry, so the
claimed `len(F.format) == len(F.columns)` fails for an installed
definition. -/
theorem c2_counterexample :
    finalDefs imgC2 none 7 = some ⟨"BAD", 5, ['B', 'B'], ["A"]⟩ ∧
      ¬ (['B', 'B'] : List Char).length = (["A"] : List String).length := by
  exact ⟨by decide, by decide⟩

theorem c2_installed_defs_wf_witness : FDefWF ⟨"BAD", 5, ['B', 'B'], ["A"]⟩ :=
  c2_installed_defs_wf imgC2 none none (imgC2.length + 1) 0 emptyDict
    (fun t fd h => by simp [emptyDict] at h) 7 _ (by decide)

/-! ## C7: per-frame error recovery -/

/-- **C7.** A per-frame decode failure never aborts the scan: a FORMAT frame
that fails to parse, and a data frame whose struct unpack fails, both set the
cursor to one byte past the suspect sync position and the loop continues; a
known data frame whose end would extend past the image terminates the stream
(`break`) cleanly, emitting nothing. -/
theorem c7_error_recovery (data : List Nat) (mt : Option String) (off : Nat)
    (d : FmtDict) (p : Nat) :
    (findFrom data off = some p → data[p + 2]? = some FORMAT_MSG_TYPE →
       extractFormatDef data p = none → step data mt off d = .skip (p + 1) d) ∧
    (∀ msgId fd, findFrom data off = some p → data[p + 2]? = some msgId →
       msgId ≠ FORMAT_MSG_TYPE → d msgId = some fd →
       filterSkips mt fd.name = false → p + fd.length ≤ data.length →
       unpackFrom fd.format data (p + 3) = none →
       step data mt off d = .skip (p + 1) d) ∧
    (∀ msgId fd, findFrom data off = some p → data[p + 2]? = some msgId →
       msgId ≠ FORMAT_MSG_TYPE → d msgId = some fd →
       filterSkips mt fd.name = false → data.length < p + fd.length →
       step data mt off d = .stop) ∧
    (∀ eIdx fuel o' d', step data mt off d = .skip o' d' →
       loopCond data.length eIdx off = true →
       messagesAux data mt eIdx (fuel + 1) off d =
         messagesAux data mt eIdx fuel o' d') ∧
    (∀ eIdx fuel, step data mt off d = .stop →
       messagesAux data mt eIdx (fuel + 1) off d = ([], d)) := by
  refine ⟨?_, ?_, ?_, ?_, ?_⟩
  · intro h1 h2 h3
    simp [step, h1, h2, h3]
  · intro msgId fd h1 h2 h3 h4 h5 h6 h7
    simp [step, h1, h2, h3, h4, h5, Nat.not_lt.mpr h6, h7]
  · intro msgId fd h1 h2 h3 h4 h5 h6
    simp [step, h1, h2, h3, h4, h5, h6]
  · intro eIdx fuel o' d' hs hl
    rw [messagesAux_succ, if_pos hl, hs]
  · intro eIdx fuel hs
    rw [messagesAux_succ, hs]
    split <;> rfl

theorem c7_error_recovery_witness :
    step ([163, 149, 128] ++ List.replicate 86 0) none 0 emptyDict =
        .skip (0 + 1) emptyDict ∧
      step [163, 149, 9, 0] none 0
          (fun t => if t = 9 then some ⟨"T", 4, ['Q'], ["X"]⟩ else none) =
        .skip (0 + 1) (fun t => if t = 9 then some ⟨"T", 4, ['Q'], ["X"]⟩ else none) ∧
      step [163, 149, 9, 0] none 0
          (fun t => if t = 9 then some ⟨"T", 10, ['B'], ["X"]⟩ else none) = .stop ∧
      messagesAux [163, 149, 9, 0] none none 5 0
          (fun t => if t = 9 then some ⟨"T", 10, ['B'], ["X"]⟩ else none) =
        ([], fun t => if t = 9 then some ⟨"T", 10, ['B'], ["X"]⟩ else none) :=
  ⟨(c7_error_recovery ([163, 149, 128] ++ List.replicate 86 0) none 0 emptyDict 0).1
      (by decide) (by decide) (by decide),
   (c7_error_recovery [163, 149, 9, 0] none 0 _ 0).2.1 9 ⟨"T", 4, ['Q'], ["X"]⟩
      (by decide) (by decide) (by decide) (by decide) (by decide) (by decide)
      (by decide),
   (c7_error_recovery [163, 149, 9, 0] none 0 _ 0).2.2.1 9 ⟨"T", 10, ['B'], ["X"]⟩
      (by decide) (by decide) (by decide) (by decide) (by decide) (by decide),
   (c7_error_recovery [163, 149, 9, 0] none 0 _ 0).2.2.2.2 none 4
      ((c7_error_recovery [163, 149, 9, 0] none 0 _ 0).2.2.1 9 ⟨"T", 10, ['B'], ["X"]⟩
        (by decide) (by decide) (by decide) (by decide) (by decide) (by decide))⟩

/-! ## Facts about the sync search and step inversion -/

theorem findFromAux_some {data : List Nat} :
    ∀ {n start p : Nat}, findFromAux data n start = some p →
      start ≤ p ∧ headerAt data p = true := by
  intro n
  induction n with
  | zero => intro start p h; exact absurd h (by simp [findFromAux])
  | succ n ih =>
    intro start p h
    unfold findFromAux at h
    split at h
    · rename_i hh
      injection h with h1
      subst h1
      exact ⟨le_refl _, hh⟩
    · obtain ⟨h1, h2⟩ := ih h
      exact ⟨by omega, h2⟩

theorem findFrom_some {data : List Nat} {start p : Nat}
    (h : findFrom data start = some p) : start ≤ p ∧ headerAt data p = true :=
  findFromAux_some h

theorem headerAt_bound {data : List Nat} {p : Nat} (h : headerAt data p = true) :
    p + 2 ≤ data.length := by
  have h' : (data.drop p).take MSG_HEADER.length = MSG_HEADER := by
    simpa [headerAt] using h
  have hl : ((data.drop p).take MSG_HEADER.length).length = MSG_HEADER.length := by
    rw [h']
  have h2 : MSG_HEADER.length = 2 := rfl
  simp only [List.length_take, List.length_drop, h2] at hl
  omega

/-- Inversion of a `skip` step: the dictionary is unchanged, or one format
definition successfully parsed at an offset in `[off, o')` was installed. -/
theorem step_skip_inversion {data : List Nat} {mt : Option String} {off o' : Nat}
    {d d' : FmtDict} (h : step data mt off d = .skip o' d') :
    off ≤ o' ∧ (d' = d ∨ ∃ q t fd mq, off ≤ q ∧ q < o' ∧
      extractFormatDef data q = some (t, fd, mq) ∧ d' = put d t fd) := by
  unfold step at h
  split at h
  · exact absurd h (by simp)
  · rename_i p hf
    have hq : off ≤ p := (findFrom_some hf).1
    split at h
    · exact absurd h (by simp)
    · rename_i msgId hid
      split at h
      · split at h
        · rename_i t fd msg hex
          split at h
          · exact absurd h (by simp)
          · injection h with h1 h2
            subst h1
            subst h2
            refine ⟨?_, .inr ⟨p, t, fd, msg, hq, ?_, hex, rfl⟩⟩ <;>
              (unfold FORMAT_MSG_LENGTH; omega)
        · injection h with h1 h2
          subst h1
          subst h2
          exact ⟨by omega, .inl rfl⟩
      · split at h
        · injection h with h1 h2
          subst h1
          subst h2
          exact ⟨by omega, .inl rfl⟩
        · rename_i fd hd
          split at h
          · injection h with h1 h2
            subst h1
            subst h2
            exact ⟨by omega, .inl rfl⟩
          · split at h
            · exact absurd h (by simp)
            · split at h
              · injection h with h1 h2
                subst h1
                subst h2
                exact ⟨by omega, .inl rfl⟩
              · exact absurd h (by simp)

/-- Inversion of an `emit` step: the record is a FORMAT record parsed at the
emission position (installing its definition), or a data record decoded with
an entry of the current dictionary. -/
theorem step_emit_inversion {data : List Nat} {mt : Option String}
    {off p o' : Nat} {m : Message} {d d' : FmtDict}
    (h : step data mt off d = .emit p m o' d') :
    off ≤ p ∧ off ≤ o' ∧
      ((∃ t fd, extractFormatDef data p = some (t, fd, m) ∧ d' = put d t fd ∧
          o' = p + FORMAT_MSG_LENGTH) ∨
        (∃ t fd vals, d t = some fd ∧ m = decodeMessages fd.name fd vals ∧
          d' = d)) := by
  unfold step at h
  split at h
  · exact absurd h (by simp)
  · rename_i q hf
    have hq : off ≤ q := (findFrom_some hf).1
    split at h
    · exact absurd h (by simp)
    · rename_i msgId hid
      split at h
      · split at h
        · rename_i t fd msg hex
          split at h
          · injection h with h1 h2 h3 h4
            subst h1
            subst h2
            subst h3
            subst h4
            exact ⟨hq, by unfold FORMAT_MSG_LENGTH; omega,
              .inl ⟨t, fd, hex, rfl, rfl⟩⟩
          · exact absurd h (by simp)
        · exact absurd h (by simp)
      · split at h
        · exact absurd h (by simp)
        · rename_i fd hd
          split at h
          · exact absurd h (by simp)
          · split at h
            · exact absurd h (by simp)
            · split at h
              · exact absurd h (by simp)
              · rename_i vals hu
                injection h with h1 h2 h3 h4
                subst h1
                subst h2
                subst h3
                subst h4
                exact ⟨hq, by omega, .inr ⟨msgId, fd, vals, hd, rfl, rfl⟩⟩

/-! ## C9: data records require a previously learned FORMAT definition -/

/-- Every entry of `d` is an entry of `d0` or was parsed from a FORMAT frame
strictly before `bound`. -/
def DictFrom (data : List Nat) (d0 d : FmtDict) (bound : Nat) : Prop :=
  ∀ t fd, d t = some fd → d0 t = some fd ∨
    ∃ q mq, q < bound ∧ extractFormatDef data q = some (t, fd, mq)

theorem DictFrom.mono {data : List Nat} {d0 d : FmtDict} {b b' : Nat}
    (h : DictFrom data d0 d b) (hb : b ≤ b') : DictFrom data d0 d b' :=
  fun t fd hfd => (h t fd hfd).imp id
    (fun ⟨q, mq, hq, he⟩ => ⟨q, mq, lt_of_lt_of_le hq hb, he⟩)

theorem messagesAux_emission_src (data : List Nat) (mt : Option String)
    (e : Option Nat) :
    ∀ (fuel off : Nat) (d d0 : FmtDict), DictFrom data d0 d off →
      ∀ (p : Nat) (m : Message), (p, m) ∈ (messagesAux data mt e fuel off d).1 →
        (∃ t fd, extractFormatDef data p = some (t, fd, m)) ∨
          ∃ t fd vals, m = decodeMessages fd.name fd vals ∧
            (d0 t = some fd ∨
              ∃ q mq, q < p ∧ extractFormatDef data q = some (t, fd, mq))
  | 0, off, d, d0, hD, p, m => by
    intro h
    simp [messagesAux] at h
  | fuel + 1, off, d, d0, hD, p, m => by
    intro h
    rw [messagesAux_succ] at h
    by_cases hl : loopCond data.length e off
    · simp only [hl, if_true] at h
      cases hstep : step data mt off d with
      | stop => rw [hstep] at h; simp at h
      | skip o' d' =>
        rw [hstep] at h
        obtain ⟨ho, hcase⟩ := step_skip_inversion hstep
        refine messagesAux_emission_src data mt e fuel o' d' d0 ?_ p m h
        rcases hcase with rfl | ⟨q, t, fd, mq, hq1, hq2, hex, rfl⟩
        · exact hD.mono ho
        · intro t' fd' hfd'
          by_cases ht : t' = t
          · subst ht
            have heq : fd = fd' := by simpa [put] using hfd'
            subst heq
            exact .inr ⟨q, mq, hq2, hex⟩
          · exact (hD.mono ho) t' fd' (by simpa [put, ht] using hfd')
      | emit p' msg o' d' =>
        rw [hstep] at h
        dsimp only at h
        obtain ⟨hop, hoo, hcase⟩ := step_emit_inversion hstep
        rcases List.mem_cons.mp h with he | h
        · obtain ⟨hp, hm⟩ := Prod.mk.injEq .. ▸ he
          subst hp
          subst hm
          rcases hcase with ⟨t, fd, hex, _, _⟩ | ⟨t, fd, vals, hdt, hm, _⟩
          · exact .inl ⟨t, fd, hex⟩
          · refine .inr ⟨t, fd, vals, hm, ?_⟩
            rcases hD t fd hdt with h0 | ⟨q, mq, hq, hex⟩
            · exact .inl h0
            · exact .inr ⟨q, mq, by omega, hex⟩
        · refine messagesAux_emission_src data mt e fuel o' d' d0 ?_ p m h
          rcases hcase with ⟨t, fd, hex, rfl, rfl⟩ | ⟨t, fd, vals, hdt, hm, rfl⟩
          · intro t' fd' hfd'
            by_cases ht : t' = t
            · subst ht
              have heq : fd = fd' := by simpa [put] using hfd'
              subst heq
              exact .inr ⟨p', msg, by unfold FORMAT_MSG_LENGTH; omega, hex⟩
            · exact (hD.mono (by omega)) t' fd' (by simpa [put, ht] using hfd')
          · exact hD.mono hoo
    · simp [hl] at h

/-- A FORMAT frame declaring type 5 as `GPS`, length 4, one `B` field `X`. -/
def fmtFrameGPS : List Nat :=
  [163, 149, 128, 5, 4] ++ [71, 80, 83, 0] ++ ([66] ++ List.replicate 15 0) ++
    ([88] ++ List.replicate 63 0)

/-- A data frame of type 5 with the single payload byte `0xFF`. -/
def dataFrameGPS : List Nat := [163, 149, 5, 255]

/-- The normalized FORMAT record for `fmtFrameGPS`. -/
def gpsFmtMsg : Message :=
  [("mavpackettype", .str "FMT"), ("Type", .int 5), ("Name", .str "GPS"),
   ("Length", .int 4), ("Format", .str "B"), ("Columns", .str "X")]

/-- The decoded data record for `dataFrameGPS`. -/
def gpsDataMsg : Message := [("mavpackettype", .str "GPS"), ("X", .int 255)]

/-- **C9.** The single-threaded scan emits a record at position `p` only if it
is a FORMAT record parsed at `p` itself, or a data record whose format
definition either was in the dictionary at the start of the scan or was
parsed from a FORMAT frame at a strictly earlier position of the same image;
consequently, on an image carrying a data record *before* its FORMAT record,
the early data record is skipped and never emitted. -/
theorem c9_data_record_needs_prior_fmt :
    (∀ (data : List Nat) (mt : Option String) (e : Option Nat) (fuel off : Nat)
        (d0 : FmtDict) (p : Nat) (m : Message),
        (p, m) ∈ (messagesAux data mt e fuel off d0).1 →
        (∃ t fd, extractFormatDef data p = some (t, fd, m)) ∨
          ∃ t fd vals, m = decodeMessages fd.name fd vals ∧
            (d0 t = some fd ∨
              ∃ q mq, q < p ∧ extractFormatDef data q = some (t, fd, mq))) ∧
      parserMessages (dataFrameGPS ++ fmtFrameGPS ++ dataFrameGPS) none none 0
          emptyDict = [gpsFmtMsg, gpsDataMsg] := by
  constructor
  · intro data mt e fuel off d0 p m h
    exact messagesAux_emission_src data mt e fuel off d0 d0
      (fun t fd hfd => .inl hfd) p m h
  · decide

theorem c9_data_record_needs_prior_fmt_witness :
    (∃ t fd, extractFormatDef (dataFrameGPS ++ fmtFrameGPS ++ dataFrameGPS) 4 =
        some (t, fd, gpsFmtMsg)) ∨
      ∃ t fd vals, gpsFmtMsg = decodeMessages fd.name fd vals ∧
        (emptyDict t = some fd ∨
          ∃ q mq, q < 4 ∧ extractFormatDef (dataFrameGPS ++ fmtFrameGPS ++ dataFrameGPS) q =
            some (t, fd, mq)) :=
  c9_data_record_needs_prior_fmt.1 (dataFrameGPS ++ fmtFrameGPS ++ dataFrameGPS)
    none none 98 0 emptyDict 4 gpsFmtMsg (by decide)

/-! ## C3: chunker invariants -/

theorem headerAt_iff {data : List Nat} {p : Nat} :
    headerAt data p = true ↔ data[p]? = some 163 ∧ data[p + 1]? = some 149 := by
  have e0 : data[p]? = (data.drop p)[0]? := by simp [List.getElem?_drop]
  have e1 : data[p + 1]? = (data.drop p)[1]? := by simp [List.getElem?_drop]
  unfold headerAt MSG_HEADER
  rw [beq_iff_eq, e0, e1]
  cases data.drop p with
  | nil => simp
  | cons a l =>
    cases l with
    | nil => simp
    | cons b l' => simp

theorem headerAt_not_adjacent {data : List Nat} {s : Nat}
    (h1 : headerAt data s = true) (h2 : headerAt data (s + 1) = true) : False := by
  have a1 := (headerAt_iff.mp h1).2
  have a2 := (headerAt_iff.mp h2).1
  rw [a1] at a2
  exact absurd (Option.some.inj a2) (by decide)

theorem isValid_elim {data : List Nat} {p : Nat} {d : FmtDict}
    (h : isValidMessageHeader data p d = true) :
    headerAt data p = true ∧ p + 2 < data.length := by
  unfold isValidMessageHeader at h
  split at h
  · exact absurd h (by simp)
  · rename_i hcond
    push_neg at hcond
    exact ⟨hcond.2, by omega⟩

theorem findFromAux_min_le {data : List Nat} :
    ∀ (n start q : Nat), start ≤ q → q < start + n → headerAt data q = true →
      ∃ s, findFromAux data n start = some s ∧ s ≤ q := by
  intro n
  induction n with
  | zero => intro start q h1 h2 _; omega
  | succ n ih =>
    intro start q h1 h2 hh
    unfold findFromAux
    by_cases hs : headerAt data start = true
    · exact ⟨start, by rw [if_pos hs], h1⟩
    · have hne : start ≠ q := fun he => hs (he ▸ hh)
      obtain ⟨s, hfs, hs'⟩ := ih (start + 1) q (by omega) (by omega) hh
      exact ⟨s, by rw [if_neg hs]; exact hfs, hs'⟩

theorem findFrom_min_le {data : List Nat} {start q : Nat} (h1 : start ≤ q)
    (hh : headerAt data q = true) :
    ∃ s, findFrom data start = some s ∧ s ≤ q := by
  have hb := headerAt_bound hh
  exact findFromAux_min_le (data.length - start) start q h1 (by omega) hh

theorem findValidFromAux_some {data : List Nat} {d : FmtDict} :
    ∀ {n start p : Nat}, findValidFromAux data d n start = some p →
      start ≤ p ∧ isValidMessageHeader data p d = true := by
  intro n
  induction n with
  | zero => intro start p h; exact absurd h (by simp [findValidFromAux])
  | succ n ih =>
    intro start p h
    unfold findValidFromAux at h
    split at h
    · exact absurd h (by simp)
    · rename_i s hf
      split at h
      · rename_i hv
        injection h with h1
        subst h1
        exact ⟨(findFrom_some hf).1, hv⟩
      · obtain ⟨h1, h2⟩ := ih h
        have hs := (findFrom_some hf).1
        have hm : MSG_HEADER.length = 2 := rfl
        exact ⟨by omega, h2⟩

theorem findValidFrom_some {data : List Nat} {d : FmtDict} {start p : Nat}
    (h : findValidFrom data d start = some p) :
    start ≤ p ∧ isValidMessageHeader data p d = true :=
  findValidFromAux_some h

theorem findValidFromAux_complete {data : List Nat} {d : FmtDict} :
    ∀ (n start q : Nat), start ≤ q → isValidMessageHeader data q d = true →
      q + 1 ≤ start + n → ∃ p, findValidFromAux data d n start = some p := by
  intro n
  induction n with
  | zero => intro start q h1 _ h3; omega
  | succ n ih =>
    intro start q h1 hq h3
    obtain ⟨hh, _⟩ := isValid_elim hq
    obtain ⟨s, hfs, hsq⟩ := findFrom_min_le h1 hh
    unfold findValidFromAux
    rw [hfs]
    dsimp only
    by_cases hv : isValidMessageHeader data s d = true
    · exact ⟨s, by rw [if_pos hv]⟩
    · have hs := (findFrom_some hfs)
      have hsk : s ≠ q := fun he => hv (he ▸ hq)
      have hsk1 : s + 1 ≠ q := by
        intro he
        exact headerAt_not_adjacent hs.2 (he ▸ hh)
      have hm : MSG_HEADER.length = 2 := rfl
      obtain ⟨p, hp⟩ := ih (s + MSG_HEADER.length) q (by omega) hq (by omega)
      exact ⟨p, by rw [if_neg hv]; exact hp⟩

theorem findValidFrom_complete {data : List Nat} {d : FmtDict} {q : Nat}
    (hq : isValidMessageHeader data q d = true) :
    ∃ p, findValidFrom data d 0 = some p := by
  have := (isValid_elim hq).2
  exact findValidFromAux_complete (data.length + 1) 0 q (by omega) hq (by omega)

/-- Unfolding lemma for one iteration of the chunk loop. -/
theorem chunkLoop_succ (data : List Nat) (d : FmtDict) (cs fuel pos : Nat) :
    chunkLoop data d cs (fuel + 1) pos =
      if pos < data.length then
        (pos, (findValidFrom data d (min (pos + cs) data.length)).getD
          data.length) ::
          chunkLoop data d cs fuel
            ((findValidFrom data d (min (pos + cs) data.length)).getD
              data.length)
      else [] := rfl

theorem chunkLoop_at_end (data : List Nat) (d : FmtDict) (cs : Nat) :
    ∀ (fuel pos : Nat), data.length ≤ pos → chunkLoop data d cs fuel pos = []
  | 0, _, _ => rfl
  | fuel + 1, pos, h => by
    unfold chunkLoop
    rw [if_neg (by omega)]

/-- All structural invariants of the chunk list, proved together by
induction on the fuel. -/
theorem chunkLoop_props (data : List Nat) (d : FmtDict) (cs : Nat)
    (hcs : 1 ≤ cs) :
    ∀ (fuel pos : Nat), pos < data.length →
      isValidMessageHeader data pos d = true → data.length ≤ fuel + pos →
      chunkLoop data d cs fuel pos ≠ [] ∧
        (chunkLoop data d cs fuel pos).head?.map Prod.fst = some pos ∧
        (∀ c ∈ chunkLoop data d cs fuel pos,
          isValidMessageHeader data c.1 d = true ∧
            (c.2 = data.length ∨ isValidMessageHeader data c.2 d = true)) ∧
        List.Chain' (fun a b => a.2 = b.1) (chunkLoop data d cs fuel pos) ∧
        (∃ c, (chunkLoop data d cs fuel pos).getLast? = some c ∧
          c.2 = data.length) := by
  intro fuel
  induction fuel with
  | zero => intro pos h1 _ h3; omega
  | succ fuel ih =>
    intro pos h1 hv h3
    have hstep : chunkLoop data d cs (fuel + 1) pos =
        (pos, ((findValidFrom data d (min (pos + cs) data.length)).getD
          data.length)) ::
          chunkLoop data d cs fuel
            ((findValidFrom data d (min (pos + cs) data.length)).getD
              data.length) := by
      rw [chunkLoop_succ, if_pos h1]
    set nxt := (findValidFrom data d (min (pos + cs) data.length)).getD
      data.length with hnxt
    have hge : pos + 1 ≤ nxt := by
      rcases hfv : findValidFrom data d (min (pos + cs) data.length) with _ | p'
      · simp only [hnxt, hfv, Option.getD_none]
        omega
      · have := (findValidFrom_some hfv).1
        simp only [hnxt, hfv, Option.getD_some]
        omega
    rcases hfv : findValidFrom data d (min (pos + cs) data.length) with _ | p'
    · -- no further header: single final chunk ending at the image end
      have hn : nxt = data.length := by simp [hnxt, hfv]
      rw [hstep, hn, chunkLoop_at_end data d cs fuel data.length le_rfl]
      refine ⟨by simp, by simp, ?_, by simp, ⟨(pos, data.length), by simp, rfl⟩⟩
      intro c hc
      simp only [List.mem_singleton] at hc
      subst hc
      exact ⟨hv, .inl rfl⟩
    · have hp' := findValidFrom_some hfv
      have hpl : p' + 2 < data.length := (isValid_elim hp'.2).2
      have hn : nxt = p' := by simp [hnxt, hfv]
      rw [hstep, hn]
      obtain ⟨hn1, hn2, hn3, hn4, hn5⟩ :=
        ih p' (by omega) hp'.2 (by omega)
      refine ⟨by simp, by simp, ?_, ?_, ?_⟩
      · intro c hc
        rcases List.mem_cons.mp hc with rfl | hc
        · exact ⟨hv, .inr (hn ▸ hp'.2)⟩
        · exact hn3 c hc
      · rw [List.chain'_cons']
        refine ⟨?_, hn4⟩
        intro b hb
        rcases hh : (chunkLoop data d cs fuel p').head? with _ | c0
        · rw [hh] at hb
          exact absurd hb (by simp)
        · rw [hh] at hb
          simp only [Option.mem_some_iff] at hb
          have h6 := hn2
          rw [hh] at h6
          simp only [Option.map_some'] at h6
          have h7 := Option.some.inj h6
          show p' = b.1
          rw [← hb]
          exact h7.symm
      · obtain ⟨c, hc1, hc2⟩ := hn5
        refine ⟨c, ?_, hc2⟩
        obtain ⟨hd, tl, hl⟩ := List.exists_cons_of_ne_nil hn1
        rw [hl, List.getLast?_cons_cons, ← hl, hc1]

/-- **C3.** For every non-empty image containing at least one valid header,
the chunker succeeds and its chunk list satisfies: every chunk starts at a
valid message header; every chunk ends at a valid message header or at the
image length; each chunk's start equals the previous chunk's end; and the
last chunk ends at the image length. -/
theorem c3_chunker_invariants (data : List Nat) (d : FmtDict) (W : Nat)
    (hne : data.length ≠ 0) (q : Nat)
    (hq : isValidMessageHeader data q d = true) :
    ∃ chunks, splitToChunks data d W = .ok chunks ∧ chunks ≠ [] ∧
      (∀ c ∈ chunks, isValidMessageHeader data c.1 d = true ∧
        (c.2 = data.length ∨ isValidMessageHeader data c.2 d = true)) ∧
      List.Chain' (fun a b => a.2 = b.1) chunks ∧
      (∃ c, chunks.getLast? = some c ∧ c.2 = data.length) := by
  obtain ⟨p0, hp0⟩ := findValidFrom_complete hq
  have hv0 := findValidFrom_some hp0
  have hlt : p0 < data.length := by
    have := (isValid_elim hv0.2).2
    omega
  have hcs : 1 ≤ max (data.length / W) (10 * 1024 * 1024) := by
    have : (1 : Nat) ≤ 10 * 1024 * 1024 := by norm_num
    omega
  obtain ⟨h1, _, h3, h4, h5⟩ :=
    chunkLoop_props data d (max (data.length / W) (10 * 1024 * 1024)) hcs
      (data.length + 1) p0 hlt hv0.2 (by omega)
  refine ⟨chunkLoop data d (max (data.length / W) (10 * 1024 * 1024))
    (data.length + 1) p0, ?_, h1, h3, h4, h5⟩
  unfold splitToChunks
  rw [if_neg hne, hp0]

theorem c3_chunker_invariants_witness :
    ∃ chunks,
      splitToChunks (fmtFrameGPS ++ dataFrameGPS) (finalDefs (fmtFrameGPS ++ dataFrameGPS) (some "FMT")) 4 =
        .ok chunks ∧ chunks ≠ [] ∧
      (∀ c ∈ chunks,
        isValidMessageHeader (fmtFrameGPS ++ dataFrameGPS) c.1
            (finalDefs (fmtFrameGPS ++ dataFrameGPS) (some "FMT")) = true ∧
          (c.2 = (fmtFrameGPS ++ dataFrameGPS).length ∨
            isValidMessageHeader (fmtFrameGPS ++ dataFrameGPS) c.2
              (finalDefs (fmtFrameGPS ++ dataFrameGPS) (some "FMT")) = true)) ∧
      List.Chain' (fun a b => a.2 = b.1) chunks ∧
      (∃ c, chunks.getLast? = some c ∧ c.2 = (fmtFrameGPS ++ dataFrameGPS).length) :=
  c3_chunker_invariants (fmtFrameGPS ++ dataFrameGPS)
    (finalDefs (fmtFrameGPS ++ dataFrameGPS) (some "FMT")) 4 (by decide) 0
    (by decide)

/-! ## C1: parallel decoding refines the single-threaded scan

A *valid log* is a concatenation of well-formed frames: FORMAT frames whose
fixed-layout fields parse successfully and whose struct fits inside the
declared record length, and data frames whose type was declared by an
earlier FORMAT frame and whose payload length matches the declaration.  We
additionally require that no type id is declared twice, and that the sync
pattern never forms a spurious valid message header anywhere but at a true
frame boundary (the spec's integrity-filter assumption: sync bytes embedded
in a payload "must not be mistaken for a frame start"). -/

/-- An abstract frame: a FORMAT frame carrying its raw 4/16/64-byte name,
format and column fields, or a data frame carrying its payload. -/
inductive Frame where
  | fmt (id len : Nat) (nameB fmtB colsB : List Nat)
  | data (id : Nat) (payload : List Nat)
deriving DecidableEq, Repr

/-- On-wire encoding of one frame: sync, type id, then the body. -/
def encodeFrame : Frame → List Nat
  | .fmt id len nB fB cB => [163, 149, 128, id, len] ++ nB ++ fB ++ cB
  | .data id payload => [163, 149, id] ++ payload

/-- On-wire encoding of a whole log. -/
def encodeLog (fs : List Frame) : List Nat := (fs.map encodeFrame).flatten

/-- The type id a FORMAT frame declares. -/
def declaredId : Frame → Option Nat
  | .fmt id _ _ _ _ => some id
  | .data _ _ => none

/-- Does `f` declare type `t`? -/
def declaresB (f : Frame) (t : Nat) : Bool :=
  match f with
  | .fmt id _ _ _ _ => id == t
  | .data _ _ => false

/-- The dictionary update a frame causes (`_extract_format_def` installs the
parsed definition of a FORMAT frame; data frames leave the dictionary
unchanged). -/
def frameInstall (d : FmtDict) : Frame → FmtDict
  | .fmt id len nB fB cB =>
    match parseFmtBytes (encodeFrame (.fmt id len nB fB cB)) with
    | some (t, fd, _) => put d t fd
    | none => d
  | .data _ _ => d

/-- The fully-populated dictionary the FMT prelude learns from a valid log. -/
def installLog (fs : List Frame) : FmtDict := fs.foldl frameInstall emptyDict

/-- Byte offset of the `m`-th frame boundary. -/
def offsetOf (fs : List Frame) (m : Nat) : Nat := (encodeLog (fs.take m)).length

/-- All frame-boundary offsets (including the end of the image). -/
def frameStarts (fs : List Frame) : List Nat :=
  (List.range (fs.length + 1)).map (offsetOf fs)

/-- Well-formedness of one frame of a valid log (relative to the log's fully
populated dictionary): a FORMAT frame has exact field widths, parses
successfully, and its struct fits inside the declared length; a data frame
has a non-FORMAT type id whose installed definition matches its payload
length. -/
def WFFrameB (dFull : FmtDict) : Frame → Bool
  | .fmt id len nB fB cB =>
    (nB.length == 4) && (fB.length == 16) && (cB.length == 64) &&
      (match parseFmtBytes (encodeFrame (.fmt id len nB fB cB)) with
       | some (t, fd, _) =>
         (t == id) &&
           (match structSize fd.format with
            | some sz => decide (sz + 3 ≤ fd.length)
            | none => false)
       | none => false)
  | .data id payload =>
    (id != FORMAT_MSG_TYPE) &&
      (match dFull id with
       | some fd => fd.length == 3 + payload.length
       | none => false)

/-- Every data frame is preceded by a FORMAT frame declaring its type. -/
def fmtBeforeOkB (fs : List Frame) : Bool :=
  (List.range fs.length).all (fun i =>
    match fs[i]? with
    | some (.data id _) =>
      (List.range i).any (fun j =>
        match fs[j]? with
        | some g => declaresB g id
        | none => false)
    | _ => true)

/-- The sync pattern forms a valid message header (w.r.t. the fully
populated dictionary) only at true frame boundaries. -/
def noFakeHeadersB (fs : List Frame) : Bool :=
  (List.range (encodeLog fs).length).all (fun p =>
    !(isValidMessageHeader (encodeLog fs) p (installLog fs)) ||
      decide (p ∈ frameStarts fs))

/-- A valid log (decidable on concrete inputs). -/
def ValidLog (fs : List Frame) : Prop :=
  fs ≠ [] ∧ (∀ f ∈ fs, WFFrameB (installLog fs) f = true) ∧
    fmtBeforeOkB fs = true ∧ (fs.filterMap declaredId).Nodup ∧
    noFakeHeadersB fs = true

instance ValidLog.decidable (fs : List Frame) : Decidable (ValidLog fs) := by
  unfold ValidLog
  infer_instance

/-- What one frame contributes to the decoded stream. -/
def emitOf (dFull : FmtDict) (mt : Option String) : Frame → List Message
  | .fmt id len nB fB cB =>
    match parseFmtBytes (encodeFrame (.fmt id len nB fB cB)) with
    | some (_, _, m) => if admitsFMT mt then [m] else []
    | none => []
  | .data id payload =>
    match dFull id with
    | some fd =>
      if filterSkips mt fd.name then []
      else
        match structSize fd.format with
        | some sz =>
          [decodeMessages fd.name fd (unpackBytes fd.format (payload.take sz))]
        | none => []
    | none => []

/-- The `(position, record)` stream of a frame list laid out from offset
`s`. -/
def emitSeq (dFull : FmtDict) (mt : Option String) : List Frame → Nat → List (Nat × Message)
  | [], _ => []
  | f :: rest, s =>
    (emitOf dFull mt f).map (fun m => (s, m)) ++
      emitSeq dFull mt rest (s + (encodeFrame f).length)

/-- The scan dictionary is aligned: any data frame of the remaining list
whose declaring FORMAT frame is not among the remaining frames before it
already sees its final definition. -/
def DictOk (dFull : FmtDict) (rest : List Frame) (d : FmtDict) : Prop :=
  ∀ (k t : Nat) (payload : List Nat), rest[k]? = some (Frame.data t payload) →
    (∀ (j : Nat) (g : Frame), j < k → rest[j]? = some g → declaresB g t = false) →
    d t = dFull t

theorem encodeFrame_ne_nil (f : Frame) : 3 ≤ (encodeFrame f).length := by
  cases f <;> simp [encodeFrame]

theorem encodeLog_append (l1 l2 : List Frame) :
    encodeLog (l1 ++ l2) = encodeLog l1 ++ encodeLog l2 := by
  simp [encodeLog]

theorem encodeLog_cons (f : Frame) (l : List Frame) :
    encodeLog (f :: l) = encodeFrame f ++ encodeLog l := by
  simp [encodeLog]

theorem length_le_encodeLog (fs : List Frame) :
    fs.length ≤ (encodeLog fs).length := by
  induction fs with
  | nil => simp [encodeLog]
  | cons f l ih =>
    rw [encodeLog_cons]
    have := encodeFrame_ne_nil f
    simp only [List.length_append, List.length_cons]
    omega

theorem getElem?_concat_mid {pre mid post : List Nat} {i : Nat}
    (h : i < mid.length) :
    (pre ++ mid ++ post)[pre.length + i]? = mid[i]? := by
  rw [List.append_assoc, List.getElem?_append_right (by omega)]
  have : pre.length + i - pre.length = i := by omega
  rw [this, List.getElem?_append_left h]

theorem bytesAt_take {pre mid post : List Nat} {n : Nat} (h : n ≤ mid.length) :
    bytesAt (pre ++ mid ++ post) pre.length n = some (mid.take n) := by
  unfold bytesAt
  rw [if_pos (by simp; omega)]
  rw [List.append_assoc, List.drop_left, List.take_append_of_le_length h]

theorem headerAt_concat {pre mid post : List Nat} (h0 : mid[0]? = some 163)
    (h1 : mid[1]? = some 149) :
    headerAt (pre ++ mid ++ post) pre.length = true := by
  rw [headerAt_iff]
  have hl0 : 0 < mid.length := (List.getElem?_eq_some.mp h0).1
  have hl1 : 1 < mid.length := (List.getElem?_eq_some.mp h1).1
  constructor
  · have := @getElem?_concat_mid pre mid post 0 hl0
    simpa [h0] using this
  · have := @getElem?_concat_mid pre mid post 1 hl1
    simpa [h1] using this

theorem messagesAux_stop {data : List Nat} {mt : Option String} {e : Option Nat}
    {off : Nat} (h : loopCond data.length e off = false) :
    ∀ (fuel : Nat) (d : FmtDict), messagesAux data mt e fuel off d = ([], d)
  | 0, _ => rfl
  | fuel + 1, d => by rw [messagesAux_succ, h]; simp

theorem parseFmtBytes_fields {fb : List Nat} {t : Nat} {fd : FormatDef}
    {m : Message} (h : parseFmtBytes fb = some (t, fd, m)) :
    t = fb.getD 3 0 ∧ fd.length = fb.getD 4 0 := by
  simp only [parseFmtBytes] at h
  split at h
  · exact absurd h (by simp)
  · split at h
    · simp only [Option.some.injEq, Prod.mk.injEq] at h
      obtain ⟨ht, hfd, _⟩ := h
      subst hfd
      exact ⟨ht.symm, rfl⟩
    · exact absurd h (by simp)

theorem WFFrameB_fmt_elim {dFull : FmtDict} {id len : Nat} {nB fB cB : List Nat}
    (h : WFFrameB dFull (.fmt id len nB fB cB) = true) :
    nB.length = 4 ∧ fB.length = 16 ∧ cB.length = 64 ∧
      ∃ fd m sz, parseFmtBytes (encodeFrame (.fmt id len nB fB cB)) =
          some (id, fd, m) ∧
        structSize fd.format = some sz ∧ sz + 3 ≤ fd.length := by
  simp only [WFFrameB, Bool.and_eq_true, beq_iff_eq] at h
  obtain ⟨⟨⟨h1, h2⟩, h3⟩, h4⟩ := h
  refine ⟨h1, h2, h3, ?_⟩
  split at h4
  · rename_i t fd m hp
    simp only [Bool.and_eq_true, beq_iff_eq] at h4
    obtain ⟨ht, h5⟩ := h4
    subst ht
    split at h5
    · rename_i sz hsz
      exact ⟨fd, m, sz, hp, hsz, by simpa using h5⟩
    · exact absurd h5 (by simp)
  · exact absurd h4 (by simp)

theorem WFFrameB_data_elim {dFull : FmtDict} {id : Nat} {payload : List Nat}
    (h : WFFrameB dFull (.data id payload) = true) :
    id ≠ FORMAT_MSG_TYPE ∧
      ∃ fd, dFull id = some fd ∧ fd.length = 3 + payload.length := by
  simp only [WFFrameB, Bool.and_eq_true, bne_iff_ne, ne_eq] at h
  obtain ⟨h1, h2⟩ := h
  refine ⟨h1, ?_⟩
  split at h2
  · rename_i fd hfd
    exact ⟨fd, hfd, by simpa using h2⟩
  · exact absurd h2 (by simp)

theorem encodeFrame_fmt_length {id len : Nat} {nB fB cB : List Nat}
    (h1 : nB.length = 4) (h2 : fB.length = 16) (h3 : cB.length = 64) :
    (encodeFrame (.fmt id len nB fB cB)).length = FORMAT_MSG_LENGTH := by
  simp [encodeFrame, h1, h2, h3, FORMAT_MSG_LENGTH]

theorem encodeFrame_data_length (id : Nat) (payload : List Nat) :
    (encodeFrame (.data id payload)).length = 3 + payload.length := by
  simp [encodeFrame]
  omega

theorem encodeFrame_fmt_getD3 (id len : Nat) (nB fB cB : List Nat) :
    (encodeFrame (.fmt id len nB fB cB)).getD 3 0 = id := rfl

theorem frameInstall_ne_declared {d : FmtDict} {f : Frame} {t : Nat}
    (h : declaresB f t = false) : frameInstall d f t = d t := by
  cases f with
  | data id p => rfl
  | fmt id len nB fB cB =>
    simp only [declaresB, beq_eq_false_iff_ne, ne_eq] at h
    unfold frameInstall
    dsimp only
    rcases hp : parseFmtBytes (encodeFrame (Frame.fmt id len nB fB cB)) with _ |
      ⟨t', fd, m⟩
    · rfl
    · dsimp only
      have ht' : t' = id := by
        have := (parseFmtBytes_fields hp).1
        rw [this]
        exact encodeFrame_fmt_getD3 id len nB fB cB
      subst ht'
      unfold put
      rw [if_neg (fun he => h he.symm)]

theorem foldl_frameInstall_not_declared :
    ∀ (gs : List Frame) (d : FmtDict) (t : Nat),
      (∀ g ∈ gs, declaresB g t = false) → gs.foldl frameInstall d t = d t
  | [], _, _, _ => rfl
  | g :: gs, d, t, h => by
    rw [List.foldl_cons,
      foldl_frameInstall_not_declared gs _ t (fun g' hg' => h g' (by simp [hg']))]
    exact frameInstall_ne_declared (h g (by simp))

theorem nodup_declared_tail {g : Frame} {gs : List Frame}
    (h : ((g :: gs).filterMap declaredId).Nodup) :
    (gs.filterMap declaredId).Nodup := by
  cases g with
  | fmt id len nB fB cB =>
    rw [List.filterMap_cons] at h
    simp only [declaredId] at h
    exact h.of_cons
  | data id p =>
    rw [List.filterMap_cons] at h
    simpa only [declaredId] using h

theorem nodup_declared_head {id len : Nat} {nB fB cB : List Nat}
    {gs : List Frame}
    (h : (((Frame.fmt id len nB fB cB) :: gs).filterMap declaredId).Nodup) :
    ∀ g' ∈ gs, declaresB g' id = false := by
  rw [List.filterMap_cons] at h
  simp only [declaredId] at h
  have hnot : id ∉ gs.filterMap declaredId := (List.nodup_cons.mp h).1
  intro g' hg'
  cases g' with
  | data id' p => rfl
  | fmt id' len' nB' fB' cB' =>
    simp only [declaresB, beq_eq_false_iff_ne, ne_eq]
    intro he
    subst he
    exact hnot (List.mem_filterMap.mpr ⟨_, hg', rfl⟩)

theorem foldl_frameInstall_mem :
    ∀ (gs : List Frame) (d : FmtDict) {id len : Nat} {nB fB cB : List Nat}
      {fd : FormatDef} {m : Message},
      (gs.filterMap declaredId).Nodup →
      (Frame.fmt id len nB fB cB) ∈ gs →
      parseFmtBytes (encodeFrame (.fmt id len nB fB cB)) = some (id, fd, m) →
      gs.foldl frameInstall d id = some fd
  | [], _, _, _, _, _, _, _, _, _, hmem, _ => absurd hmem (by simp)
  | g :: gs, d, id, len, nB, fB, cB, fd, m, hnd, hmem, hp => by
    rw [List.foldl_cons]
    rcases List.mem_cons.mp hmem with rfl | hmem'
    · have hinst : frameInstall d (Frame.fmt id len nB fB cB) id = some fd := by
        unfold frameInstall
        dsimp only
        rw [hp]
        dsimp only
        unfold put
        rw [if_pos rfl]
      rw [foldl_frameInstall_not_declared gs _ id (nodup_declared_head hnd),
        hinst]
    · exact foldl_frameInstall_mem gs _ (nodup_declared_tail hnd) hmem' hp

theorem foldl_frameInstall_src :
    ∀ (gs : List Frame) (d : FmtDict) (t : Nat) (fd : FormatDef),
      gs.foldl frameInstall d t = some fd →
      d t = some fd ∨ ∃ id len nB fB cB m, (Frame.fmt id len nB fB cB) ∈ gs ∧
        parseFmtBytes (encodeFrame (.fmt id len nB fB cB)) = some (t, fd, m)
  | [], _, _, _, h => .inl h
  | g :: gs, d, t, fd, h => by
    rw [List.foldl_cons] at h
    rcases foldl_frameInstall_src gs _ t fd h with h' |
      ⟨id, len, nB, fB, cB, m, hmem, hp⟩
    · cases g with
      | data id p => exact .inl h'
      | fmt id len nB fB cB =>
        unfold frameInstall at h'
        dsimp only at h'
        rcases hp : parseFmtBytes (encodeFrame (Frame.fmt id len nB fB cB)) with
          _ | ⟨t', fd', m'⟩
        · rw [hp] at h'
          dsimp only at h'
          exact .inl h'
        · rw [hp] at h'
          dsimp only at h'
          by_cases ht : t = t'
          · subst ht
            have hfd : fd' = fd := by simpa [put] using h'
            subst hfd
            exact .inr ⟨id, len, nB, fB, cB, m', by simp, hp⟩
          · exact .inl (by simpa [put, ht] using h')
    · exact .inr ⟨id, len, nB, fB, cB, m, by simp [hmem], hp⟩

theorem dFull_entry_struct {fs : List Frame}
    (hwf : ∀ f ∈ fs, WFFrameB (installLog fs) f = true) {t : Nat}
    {fd : FormatDef} (h : installLog fs t = some fd) :
    ∃ sz, structSize fd.format = some sz ∧ sz + 3 ≤ fd.length := by
  rcases foldl_frameInstall_src fs emptyDict t fd h with h' |
    ⟨id, len, nB, fB, cB, m, hmem, hp⟩
  · exact absurd h' (by simp [emptyDict])
  · obtain ⟨_, _, _, fd', m', sz, hp', hsz, hle⟩ :=
      WFFrameB_fmt_elim (hwf _ hmem)
    rw [hp] at hp'
    simp only [Option.some.injEq, Prod.mk.injEq] at hp'
    obtain ⟨-, hfd, -⟩ := hp'
    subst hfd
    exact ⟨sz, hsz, hle⟩

theorem findFrom_self {data : List Nat} {s : Nat} (h : headerAt data s = true) :
    findFrom data s = some s := by
  have hb := headerAt_bound h
  unfold findFrom
  have hc : data.length - s = (data.length - s - 1) + 1 := by omega
  rw [hc]
  unfold findFromAux
  rw [if_pos h]

/-- `step` at the start of a FORMAT frame of a valid log: the definition is
installed and the cursor advances by `FORMAT_MSG_LENGTH`; the record is
emitted iff the filter admits `"FMT"`. -/
theorem step_at_fmt_frame {fs pres rest' : List Frame} {id len : Nat}
    {nB fB cB : List Nat}
    (hfs : fs = pres ++ (Frame.fmt id len nB fB cB) :: rest')
    (hwf : WFFrameB (installLog fs) (.fmt id len nB fB cB) = true)
    (d : FmtDict) (mt : Option String) :
    ∃ fd m, parseFmtBytes (encodeFrame (.fmt id len nB fB cB)) = some (id, fd, m) ∧
      step (encodeLog fs) mt (encodeLog pres).length d =
        (if admitsFMT mt
         then .emit (encodeLog pres).length m
           ((encodeLog pres).length + FORMAT_MSG_LENGTH) (put d id fd)
         else .skip ((encodeLog pres).length + FORMAT_MSG_LENGTH) (put d id fd)) := by
  obtain ⟨h4, h16, h64, fd, m, sz, hp, hsz, hle⟩ := WFFrameB_fmt_elim hwf
  refine ⟨fd, m, hp, ?_⟩
  subst hfs
  rw [show encodeLog (pres ++ (Frame.fmt id len nB fB cB) :: rest') =
      encodeLog pres ++ encodeFrame (.fmt id len nB fB cB) ++ encodeLog rest' by
    rw [encodeLog_append, encodeLog_cons, ← List.append_assoc]]
  have hmlen : (encodeFrame (Frame.fmt id len nB fB cB)).length =
      FORMAT_MSG_LENGTH := encodeFrame_fmt_length h4 h16 h64
  have hH : headerAt
      (encodeLog pres ++ encodeFrame (.fmt id len nB fB cB) ++ encodeLog rest')
      (encodeLog pres).length = true := by
    refine headerAt_concat ?_ ?_ <;> simp [encodeFrame]
  have hfind := findFrom_self hH
  have hid : (encodeLog pres ++ encodeFrame (.fmt id len nB fB cB) ++
      encodeLog rest')[(encodeLog pres).length + 2]? = some 128 := by
    rw [getElem?_concat_mid (by rw [hmlen]; unfold FORMAT_MSG_LENGTH; omega)]
    simp [encodeFrame]
  have hex : extractFormatDef
      (encodeLog pres ++ encodeFrame (.fmt id len nB fB cB) ++ encodeLog rest')
      (encodeLog pres).length = some (id, fd, m) := by
    unfold extractFormatDef
    rw [show FORMAT_MSG_LENGTH = (encodeFrame (Frame.fmt id len nB fB cB)).length
      from hmlen.symm, bytesAt_take le_rfl, List.take_length]
    exact hp
  unfold step
  rw [hfind]
  dsimp only
  rw [hid]
  dsimp only
  rw [if_pos (show (128 : Nat) = FORMAT_MSG_TYPE from rfl), hex]

/-- `step` at the start of a data frame of a valid log whose dictionary entry
is already final: the cursor advances by the declared record length; the
decoded record is emitted unless the type filter skips it. -/
theorem step_at_data_frame {fs pres rest' : List Frame} {id : Nat}
    {payload : List Nat}
    (hfs : fs = pres ++ (Frame.data id payload) :: rest')
    (hwf : ∀ f ∈ fs, WFFrameB (installLog fs) f = true)
    {d : FmtDict} (hd : d id = installLog fs id) (mt : Option String) :
    ∃ fd sz, installLog fs id = some fd ∧ fd.length = 3 + payload.length ∧
      structSize fd.format = some sz ∧
      step (encodeLog fs) mt (encodeLog pres).length d =
        (if filterSkips mt fd.name
         then .skip ((encodeLog pres).length + fd.length) d
         else .emit (encodeLog pres).length
           (decodeMessages fd.name fd (unpackBytes fd.format (payload.take sz)))
           ((encodeLog pres).length + fd.length) d) := by
  have hmem : (Frame.data id payload) ∈ fs := by
    rw [hfs]
    simp
  obtain ⟨hne, fd, hfd, hlen⟩ := WFFrameB_data_elim (hwf _ hmem)
  obtain ⟨sz, hsz, hle⟩ := dFull_entry_struct hwf hfd
  refine ⟨fd, sz, hfd, hlen, hsz, ?_⟩
  have hdid : d id = some fd := by rw [hd, hfd]
  subst hfs
  rw [show encodeLog (pres ++ (Frame.data id payload) :: rest') =
      encodeLog pres ++ encodeFrame (.data id payload) ++ encodeLog rest' by
    rw [encodeLog_append, encodeLog_cons, ← List.append_assoc]]
  have hH : headerAt
      (encodeLog pres ++ encodeFrame (.data id payload) ++ encodeLog rest')
      (encodeLog pres).length = true := by
    refine headerAt_concat ?_ ?_ <;> simp [encodeFrame]
  have hfind := findFrom_self hH
  have hid : (encodeLog pres ++ encodeFrame (.data id payload) ++
      encodeLog rest')[(encodeLog pres).length + 2]? = some id := by
    rw [getElem?_concat_mid (by simp only [encodeFrame_data_length]; omega)]
    simp [encodeFrame]
  have hbound : ¬ ((encodeLog pres ++ encodeFrame (.data id payload) ++
      encodeLog rest').length < (encodeLog pres).length + fd.length) := by
    simp only [List.length_append, encodeFrame_data_length]
    omega
  have hup : unpackFrom fd.format
      (encodeLog pres ++ encodeFrame (.data id payload) ++ encodeLog rest')
      ((encodeLog pres).length + 3) = some (unpackBytes fd.format (payload.take sz)) := by
    have hassoc : encodeLog pres ++ encodeFrame (.data id payload) ++
        encodeLog rest' =
        (encodeLog pres ++ [163, 149, id]) ++ payload ++ encodeLog rest' := by
      simp [encodeFrame]
    have hplen : (encodeLog pres ++ [163, 149, id]).length =
        (encodeLog pres).length + 3 := by simp
    unfold unpackFrom
    rw [hsz]
    dsimp only
    rw [hassoc, ← hplen, bytesAt_take (show sz ≤ payload.length by omega)]
    rfl
  unfold step
  rw [hfind]
  dsimp only
  rw [hid]
  dsimp only
  rw [if_neg hne, hdid]
  dsimp only
  by_cases hskip : filterSkips mt fd.name = true
  · rw [if_pos hskip, if_pos hskip]
  · rw [if_neg hskip, if_neg hskip, if_neg hbound, hup]

theorem frameInstall_parse {d : FmtDict} {id len : Nat} {nB fB cB : List Nat}
    {fd : FormatDef} {m : Message}
    (hp : parseFmtBytes (encodeFrame (.fmt id len nB fB cB)) = some (id, fd, m)) :
    frameInstall d (.fmt id len nB fB cB) = put d id fd := by
  unfold frameInstall
  dsimp only
  rw [hp]

theorem emitOf_fmt_eq {dF : FmtDict} {mt : Option String} {id len : Nat}
    {nB fB cB : List Nat} {t : Nat} {fd : FormatDef} {m : Message}
    (hp : parseFmtBytes (encodeFrame (.fmt id len nB fB cB)) = some (t, fd, m)) :
    emitOf dF mt (.fmt id len nB fB cB) = if admitsFMT mt then [m] else [] := by
  unfold emitOf
  dsimp only
  rw [hp]

theorem emitOf_data_eq {dF : FmtDict} {mt : Option String} {id : Nat}
    {payload : List Nat} {fd : FormatDef} {sz : Nat} (hfd : dF id = some fd)
    (hsz : structSize fd.format = some sz) :
    emitOf dF mt (.data id payload) =
      if filterSkips mt fd.name then []
      else [decodeMessages fd.name fd (unpackBytes fd.format (payload.take sz))] := by
  unfold emitOf
  dsimp only
  rw [hfd]
  dsimp only
  by_cases hs : filterSkips mt fd.name = true
  · rw [if_pos hs, if_pos hs]
  · rw [if_neg hs, if_neg hs, hsz]

theorem emitSeq_cons (dF : FmtDict) (mt : Option String) (f : Frame)
    (rest : List Frame) (s : Nat) :
    emitSeq dF mt (f :: rest) s = (emitOf dF mt f).map (fun m => (s, m)) ++
      emitSeq dF mt rest (s + (encodeFrame f).length) := rfl

theorem DictOk_cons_data {dFull : FmtDict} {id : Nat} {payload : List Nat}
    {rest' : List Frame} {d : FmtDict}
    (h : DictOk dFull ((Frame.data id payload) :: rest') d) :
    DictOk dFull rest' d := by
  intro k t pl hk hnd
  refine h (k + 1) t pl (by simpa using hk) ?_
  intro j g hj hg
  cases j with
  | zero =>
    simp only [List.getElem?_cons_zero, Option.some.injEq] at hg
    rw [← hg]
    rfl
  | succ j =>
    exact hnd j g (by omega) (by simpa using hg)

theorem DictOk_cons_fmt {dFull : FmtDict} {id len : Nat} {nB fB cB : List Nat}
    {rest' : List Frame} {d : FmtDict} {fd : FormatDef}
    (h : DictOk dFull ((Frame.fmt id len nB fB cB) :: rest') d)
    (hinst : dFull id = some fd) :
    DictOk dFull rest' (put d id fd) := by
  intro k t pl hk hnd
  by_cases ht : t = id
  · subst ht
    unfold put
    rw [if_pos rfl, hinst]
  · have hput : put d id fd t = d t := by
      unfold put
      rw [if_neg ht]
    rw [hput]
    refine h (k + 1) t pl (by simpa using hk) ?_
    intro j g hj hg
    cases j with
    | zero =>
      simp only [List.getElem?_cons_zero, Option.some.injEq] at hg
      rw [← hg]
      simp only [declaresB, beq_eq_false_iff_ne, ne_eq]
      exact fun he => ht he.symm
    | succ j =>
      exact hnd j g (by omega) (by simpa using hg)

/-- The single scan over the frames of a valid log, no end bound: starting at
any frame boundary with an aligned dictionary, the output is exactly the
per-frame emissions and the final dictionary is the fold of the remaining
frames' installs. -/
theorem scan_frames_none (fs : List Frame) (hV : ValidLog fs)
    (mt : Option String) :
    ∀ (rest : List Frame) (fuel : Nat) (pres : List Frame) (d : FmtDict),
      fs = pres ++ rest → DictOk (installLog fs) rest d → rest.length ≤ fuel →
      messagesAux (encodeLog fs) mt none fuel (encodeLog pres).length d =
        (emitSeq (installLog fs) mt rest (encodeLog pres).length,
          rest.foldl frameInstall d) := by
  intro rest
  induction rest with
  | nil =>
    intro fuel pres d hfs hD hfuel
    have hlen : (encodeLog pres).length = (encodeLog fs).length := by
      rw [hfs]
      simp
    have hstop : loopCond (encodeLog fs).length none (encodeLog pres).length
        = false := by
      simp [loopCond, hlen]
    rw [messagesAux_stop hstop]
    rfl
  | cons f rest' ih =>
    intro fuel pres d hfs hD hfuel
    obtain ⟨fuel, rfl⟩ : ∃ n, fuel = n + 1 := ⟨fuel - 1, by simp at hfuel; omega⟩
    have hlt : (encodeLog pres).length < (encodeLog fs).length := by
      rw [hfs, encodeLog_append, encodeLog_cons]
      have := encodeFrame_ne_nil f
      simp only [List.length_append]
      omega
    have hl : loopCond (encodeLog fs).length none (encodeLog pres).length
        = true := by
      simp [loopCond, hlt]
    rw [messagesAux_succ, if_pos hl]
    cases f with
    | fmt id len nB fB cB =>
      have hwfF : WFFrameB (installLog fs) (.fmt id len nB fB cB) = true :=
        hV.2.1 _ (by rw [hfs]; simp)
      obtain ⟨h4, h16, h64, fd0, m0, sz0, hp0, _, _⟩ := WFFrameB_fmt_elim hwfF
      obtain ⟨fd, m, hp, hstep⟩ := step_at_fmt_frame hfs hwfF d mt
      have hinst : installLog fs id = some fd :=
        foldl_frameInstall_mem fs emptyDict hV.2.2.2.1 (by rw [hfs]; simp) hp
      have hD' : DictOk (installLog fs) rest' (put d id fd) :=
        DictOk_cons_fmt hD hinst
      have hfs' : fs = (pres ++ [Frame.fmt id len nB fB cB]) ++ rest' := by
        rw [hfs]
        simp
      have hoff : (encodeLog (pres ++ [Frame.fmt id len nB fB cB])).length =
          (encodeLog pres).length + FORMAT_MSG_LENGTH := by
        rw [encodeLog_append]
        simp only [List.length_append]
        rw [show (encodeLog [Frame.fmt id len nB fB cB]).length =
          FORMAT_MSG_LENGTH by
            rw [encodeLog_cons]
            simp only [encodeLog, List.map_nil, List.flatten_nil,
              List.append_nil]
            exact encodeFrame_fmt_length h4 h16 h64]
      have hrec := ih fuel (pres ++ [Frame.fmt id len nB fB cB]) (put d id fd)
        hfs' hD' (by simp at hfuel; omega)
      rw [hoff] at hrec
      have hemit : emitSeq (installLog fs) mt
          ((Frame.fmt id len nB fB cB) :: rest') (encodeLog pres).length =
          (if admitsFMT mt then
            [((encodeLog pres).length, m)] else []) ++
            emitSeq (installLog fs) mt rest'
              ((encodeLog pres).length + FORMAT_MSG_LENGTH) := by
        rw [emitSeq_cons, emitOf_fmt_eq hp, encodeFrame_fmt_length h4 h16 h64]
        by_cases ha : admitsFMT mt = true
        · rw [if_pos ha, if_pos ha]
          rfl
        · rw [if_neg ha, if_neg ha]
          rfl
      have hfold : ((Frame.fmt id len nB fB cB) :: rest').foldl frameInstall d
          = rest'.foldl frameInstall (put d id fd) := by
        rw [List.foldl_cons, frameInstall_parse hp]
      rw [hstep]
      by_cases ha : admitsFMT mt = true
      · rw [if_pos ha]
        dsimp only
        rw [hrec, hemit, if_pos ha, hfold]
        rfl
      · rw [if_neg ha]
        dsimp only
        rw [hrec, hemit, if_neg ha, hfold]
        rfl
    | data id payload =>
      have hd0 : d id = installLog fs id := by
        refine hD 0 id payload (by simp) ?_
        intro j g hj hg
        omega
      obtain ⟨fd, sz, hfd, hlenfd, hsz, hstep⟩ :=
        step_at_data_frame hfs hV.2.1 hd0 mt
      have hD' : DictOk (installLog fs) rest' d := DictOk_cons_data hD
      have hfs' : fs = (pres ++ [Frame.data id payload]) ++ rest' := by
        rw [hfs]
        simp
      have hoff : (encodeLog (pres ++ [Frame.data id payload])).length =
          (encodeLog pres).length + fd.length := by
        rw [encodeLog_append]
        simp only [List.length_append]
        rw [show (encodeLog [Frame.data id payload]).length = fd.length by
          rw [encodeLog_cons]
          simp only [encodeLog, List.map_nil, List.flatten_nil, List.append_nil]
          rw [encodeFrame_data_length, hlenfd]]
      have hrec := ih fuel (pres ++ [Frame.data id payload]) d hfs' hD'
        (by simp at hfuel; omega)
      rw [hoff] at hrec
      have hemit : emitSeq (installLog fs) mt
          ((Frame.data id payload) :: rest') (encodeLog pres).length =
          (if filterSkips mt fd.name then [] else
            [((encodeLog pres).length,
              decodeMessages fd.name fd (unpackBytes fd.format (payload.take sz)))]) ++
            emitSeq (installLog fs) mt rest'
              ((encodeLog pres).length + fd.length) := by
        rw [emitSeq_cons, emitOf_data_eq hfd hsz, encodeFrame_data_length,
          ← hlenfd]
        by_cases hskip : filterSkips mt fd.name = true
        · rw [if_pos hskip, if_pos hskip]
          rfl
        · rw [if_neg hskip, if_neg hskip]
          rfl
      have hfold : ((Frame.data id payload) :: rest').foldl frameInstall d
          = rest'.foldl frameInstall d := by
        rw [List.foldl_cons]
        rfl
      rw [hstep]
      by_cases hskip : filterSkips mt fd.name = true
      · rw [if_pos hskip]
        dsimp only
        rw [hrec, hemit, if_pos hskip, hfold]
        rfl
      · rw [if_neg hskip]
        dsimp only
        rw [hrec, hemit, if_neg hskip, hfold]
        rfl

/-- The worker scan over a chunk of a valid log: starting at a frame
boundary with an aligned dictionary and `end_index` at a later frame
boundary, the output is exactly the emissions of the frames lying in the
chunk. -/
theorem scan_frames_some (fs : List Frame) (hV : ValidLog fs)
    (mt : Option String) :
    ∀ (K : Nat) (rest : List Frame) (fuel : Nat) (pres : List Frame) (d : FmtDict),
      fs = pres ++ rest → DictOk (installLog fs) rest d → rest.length ≤ fuel →
      K ≤ rest.length → 1 ≤ (encodeLog (pres ++ rest.take K)).length →
      messagesAux (encodeLog fs) mt
          (some (encodeLog (pres ++ rest.take K)).length) fuel
          (encodeLog pres).length d =
        (emitSeq (installLog fs) mt (rest.take K) (encodeLog pres).length,
          (rest.take K).foldl frameInstall d) := by
  intro K
  induction K with
  | zero =>
    intro rest fuel pres d hfs hD hfuel hK hE
    simp only [List.take_zero, List.append_nil] at hE ⊢
    have hstop : loopCond (encodeLog fs).length
        (some (encodeLog pres).length) (encodeLog pres).length = false := by
      simp only [loopCond, Bool.and_eq_false_iff]
      right
      simp only [Bool.or_eq_false_iff]
      constructor
      · simp only [beq_eq_false_iff_ne, ne_eq]
        omega
      · simp
    rw [messagesAux_stop hstop]
    rfl
  | succ K ih =>
    intro rest fuel pres d hfs hD hfuel hK hE
    obtain ⟨f, rest', rfl⟩ : ∃ g gs, rest = g :: gs := by
      cases rest with
      | nil => simp at hK
      | cons g gs => exact ⟨g, gs, rfl⟩
    obtain ⟨fuel, rfl⟩ : ∃ n, fuel = n + 1 := ⟨fuel - 1, by simp at hfuel; omega⟩
    simp only [List.take_succ_cons] at hE ⊢
    have happ : pres ++ f :: rest'.take K =
        (pres ++ [f]) ++ rest'.take K := by simp
    have hlt : (encodeLog pres).length < (encodeLog fs).length := by
      rw [hfs, encodeLog_append, encodeLog_cons]
      have := encodeFrame_ne_nil f
      simp only [List.length_append]
      omega
    have hltE : (encodeLog pres).length <
        (encodeLog (pres ++ f :: rest'.take K)).length := by
      rw [encodeLog_append, encodeLog_cons]
      have := encodeFrame_ne_nil f
      simp only [List.length_append]
      omega
    have hl : loopCond (encodeLog fs).length
        (some (encodeLog (pres ++ f :: rest'.take K)).length)
        (encodeLog pres).length = true := by
      simp only [loopCond, Bool.and_eq_true, decide_eq_true_eq]
      exact ⟨hlt, by simp [hltE]⟩
    rw [messagesAux_succ, if_pos hl]
    cases f with
    | fmt id len nB fB cB =>
      have hwfF : WFFrameB (installLog fs) (.fmt id len nB fB cB) = true :=
        hV.2.1 _ (by rw [hfs]; simp)
      obtain ⟨h4, h16, h64, fd0, m0, sz0, hp0, -, -⟩ := WFFrameB_fmt_elim hwfF
      obtain ⟨fd, m, hp, hstep⟩ := step_at_fmt_frame hfs hwfF d mt
      have hinst : installLog fs id = some fd :=
        foldl_frameInstall_mem fs emptyDict hV.2.2.2.1 (by rw [hfs]; simp) hp
      have hD' : DictOk (installLog fs) rest' (put d id fd) :=
        DictOk_cons_fmt hD hinst
      have hfs' : fs = (pres ++ [Frame.fmt id len nB fB cB]) ++ rest' := by
        rw [hfs]
        simp
      have hoff : (encodeLog (pres ++ [Frame.fmt id len nB fB cB])).length =
          (encodeLog pres).length + FORMAT_MSG_LENGTH := by
        rw [encodeLog_append]
        simp only [List.length_append]
        rw [show (encodeLog [Frame.fmt id len nB fB cB]).length =
          FORMAT_MSG_LENGTH by
            rw [encodeLog_cons]
            simp only [encodeLog, List.map_nil, List.flatten_nil,
              List.append_nil]
            exact encodeFrame_fmt_length h4 h16 h64]
      have hrec := ih rest' fuel (pres ++ [Frame.fmt id len nB fB cB])
        (put d id fd) hfs' hD' (by simp at hfuel; omega)
        (by simp at hK; omega) (by rw [← happ]; omega)
      rw [hoff, ← happ] at hrec
      have hemit : emitSeq (installLog fs) mt
          ((Frame.fmt id len nB fB cB) :: rest'.take K)
          (encodeLog pres).length =
          (if admitsFMT mt then [((encodeLog pres).length, m)] else []) ++
            emitSeq (installLog fs) mt (rest'.take K)
              ((encodeLog pres).length + FORMAT_MSG_LENGTH) := by
        rw [emitSeq_cons, emitOf_fmt_eq hp, encodeFrame_fmt_length h4 h16 h64]
        by_cases ha : admitsFMT mt = true
        · rw [if_pos ha, if_pos ha]
          rfl
        · rw [if_neg ha, if_neg ha]
          rfl
      have hfold : ((Frame.fmt id len nB fB cB) :: rest'.take K).foldl
          frameInstall d = (rest'.take K).foldl frameInstall (put d id fd) := by
        rw [List.foldl_cons, frameInstall_parse hp]
      rw [hstep]
      by_cases ha : admitsFMT mt = true
      · rw [if_pos ha]
        dsimp only
        rw [hrec, hemit, if_pos ha, hfold]
        rfl
      · rw [if_neg ha]
        dsimp only
        rw [hrec, hemit, if_neg ha, hfold]
        rfl
    | data id payload =>
      have hd0 : d id = installLog fs id := by
        refine hD 0 id payload (by simp) ?_
        intro j g hj hg
        omega
      obtain ⟨fd, sz, hfd, hlenfd, hsz, hstep⟩ :=
        step_at_data_frame hfs hV.2.1 hd0 mt
      have hD' : DictOk (installLog fs) rest' d := DictOk_cons_data hD
      have hfs' : fs = (pres ++ [Frame.data id payload]) ++ rest' := by
        rw [hfs]
        simp
      have hoff : (encodeLog (pres ++ [Frame.data id payload])).length =
          (encodeLog pres).length + fd.length := by
        rw [encodeLog_append]
        simp only [List.length_append]
        rw [show (encodeLog [Frame.data id payload]).length = fd.length by
          rw [encodeLog_cons]
          simp only [encodeLog, List.map_nil, List.flatten_nil, List.append_nil]
          rw [encodeFrame_data_length, hlenfd]]
      have hrec := ih rest' fuel (pres ++ [Frame.data id payload]) d hfs' hD'
        (by simp at hfuel; omega) (by simp at hK; omega)
        (by rw [← happ]; omega)
      rw [hoff, ← happ] at hrec
      have hemit : emitSeq (installLog fs) mt
          ((Frame.data id payload) :: rest'.take K) (encodeLog pres).length =
          (if filterSkips mt fd.name then [] else
            [((encodeLog pres).length,
              decodeMessages fd.name fd
                (unpackBytes fd.format (payload.take sz)))]) ++
            emitSeq (installLog fs) mt (rest'.take K)
              ((encodeLog pres).length + fd.length) := by
        rw [emitSeq_cons, emitOf_data_eq hfd hsz, encodeFrame_data_length,
          ← hlenfd]
        by_cases hskip : filterSkips mt fd.name = true
        · rw [if_pos hskip, if_pos hskip]
          rfl
        · rw [if_neg hskip, if_neg hskip]
          rfl
      have hfold : ((Frame.data id payload) :: rest'.take K).foldl
          frameInstall d = (rest'.take K).foldl frameInstall d := by
        rw [List.foldl_cons]
        rfl
      rw [hstep]
      by_cases hskip : filterSkips mt fd.name = true
      · rw [if_pos hskip]
        dsimp only
        rw [hrec, hemit, if_pos hskip, hfold]
        rfl
      · rw [if_neg hskip]
        dsimp only
        rw [hrec, hemit, if_neg hskip, hfold]
        rfl

theorem one_le_encodeLog {l : List Frame} (h : l ≠ []) :
    1 ≤ (encodeLog l).length := by
  have := length_le_encodeLog l
  have : 1 ≤ l.length := List.length_pos.mpr h
  omega

theorem offsetOf_le_offsetOf {fs : List Frame} {a b : Nat} (h : a ≤ b) :
    offsetOf fs a ≤ offsetOf fs b := by
  unfold offsetOf
  rw [show b = a + (b - a) by omega, List.take_add, encodeLog_append]
  simp

theorem offsetOf_add {fs : List Frame} {a b : Nat} (h : a ≤ b) :
    offsetOf fs b = offsetOf fs a +
      (encodeLog ((fs.drop a).take (b - a))).length := by
  unfold offsetOf
  rw [show b = a + (b - a) by omega, List.take_add, encodeLog_append]
  simp

theorem offsetOf_lt_offsetOf {fs : List Frame} {a b : Nat} (hab : a < b)
    (hb : b ≤ fs.length) : offsetOf fs a < offsetOf fs b := by
  rw [offsetOf_add (le_of_lt hab)]
  have hseg : (fs.drop a).take (b - a) ≠ [] := by
    have hlen : ((fs.drop a).take (b - a)).length = b - a := by
      simp only [List.length_take, List.length_drop]
      omega
    intro he
    rw [he] at hlen
    simp at hlen
    omega
  have := one_le_encodeLog hseg
  omega

theorem offsetOf_le_len (fs : List Frame) (b : Nat) :
    offsetOf fs b ≤ (encodeLog fs).length := by
  unfold offsetOf
  conv_rhs => rw [← List.take_append_drop b fs]
  rw [encodeLog_append]
  simp

theorem offsetOf_full (fs : List Frame) :
    offsetOf fs fs.length = (encodeLog fs).length := by
  unfold offsetOf
  rw [List.take_length]

theorem mem_frameStarts {fs : List Frame} {p : Nat} :
    p ∈ frameStarts fs ↔ ∃ m, m ≤ fs.length ∧ p = offsetOf fs m := by
  simp only [frameStarts, List.mem_map, List.mem_range, Nat.lt_succ_iff]
  constructor
  · rintro ⟨m, hm, rfl⟩
    exact ⟨m, hm, rfl⟩
  · rintro ⟨m, hm, rfl⟩
    exact ⟨m, hm, rfl⟩

theorem valid_is_frameStart {fs : List Frame} (hV : ValidLog fs) {p : Nat}
    (h : isValidMessageHeader (encodeLog fs) p (installLog fs) = true) :
    ∃ b, b ≤ fs.length ∧ p = offsetOf fs b := by
  have hp : p < (encodeLog fs).length := by
    have := (isValid_elim h).2
    omega
  have hb := hV.2.2.2.2
  simp only [noFakeHeadersB, List.all_eq_true, List.mem_range] at hb
  have hbp := hb p hp
  rw [h] at hbp
  simp only [Bool.not_true, Bool.false_or, decide_eq_true_eq] at hbp
  exact mem_frameStarts.mp hbp

theorem DictOk_refl (dFull : FmtDict) (rest : List Frame) :
    DictOk dFull rest dFull := fun _ _ _ _ _ => rfl

theorem DictOk_empty (fs : List Frame) (hV : ValidLog fs) :
    DictOk (installLog fs) fs emptyDict := by
  intro k t payload hk hnd
  exfalso
  have hb := hV.2.2.1
  simp only [fmtBeforeOkB, List.all_eq_true, List.mem_range] at hb
  have hk' : k < fs.length := (List.getElem?_eq_some.mp hk).1
  have hbk := hb k hk'
  rw [hk] at hbk
  dsimp only at hbk
  simp only [List.any_eq_true, List.mem_range] at hbk
  obtain ⟨j, hj, hgj⟩ := hbk
  cases hg : fs[j]? with
  | none => rw [hg] at hgj; simp at hgj
  | some g =>
    rw [hg] at hgj
    dsimp only at hgj
    exact absurd hgj (by rw [hnd j g hj hg]; simp)

theorem emitSeq_append (dF : FmtDict) (mt : Option String) :
    ∀ (l1 l2 : List Frame) (s : Nat),
      emitSeq dF mt (l1 ++ l2) s = emitSeq dF mt l1 s ++
        emitSeq dF mt l2 (s + (encodeLog l1).length)
  | [], l2, s => by
    simp [emitSeq, encodeLog]
  | f :: l1, l2, s => by
    rw [List.cons_append, emitSeq_cons, emitSeq_cons,
      emitSeq_append dF mt l1 l2 (s + (encodeFrame f).length),
      List.append_assoc]
    have : s + (encodeFrame f).length + (encodeLog l1).length =
        s + (encodeLog (f :: l1)).length := by
      rw [encodeLog_cons]
      simp only [List.length_append]
      omega
    rw [this]

theorem findValidFromAux_succ (data : List Nat) (d : FmtDict) (n start : Nat) :
    findValidFromAux data d (n + 1) start =
      match findFrom data start with
      | none => none
      | some p =>
        if isValidMessageHeader data p d then some p
        else findValidFromAux data d n (p + MSG_HEADER.length) := rfl

theorem isValid_log_zero (fs : List Frame) (hV : ValidLog fs) :
    isValidMessageHeader (encodeLog fs) 0 (installLog fs) = true := by
  obtain ⟨f, rest, rfl⟩ : ∃ f rest, fs = f :: rest := by
    cases fs with
    | nil => exact absurd rfl hV.1
    | cons f rest => exact ⟨f, rest, rfl⟩
  have hlen3 : 3 ≤ (encodeLog (f :: rest)).length := by
    rw [encodeLog_cons]
    have := encodeFrame_ne_nil f
    simp only [List.length_append]
    omega
  have hH : headerAt (encodeLog (f :: rest)) 0 = true := by
    rw [headerAt_iff]
    constructor <;>
      (rw [encodeLog_cons,
        List.getElem?_append_left (by have := encodeFrame_ne_nil f; omega)] <;>
        cases f <;> rfl)
  unfold isValidMessageHeader
  rw [if_neg (not_or.mpr ⟨by omega, not_not_intro hH⟩)]
  cases f with
  | fmt id len nB fB cB =>
    have hid : (encodeLog ((Frame.fmt id len nB fB cB) :: rest))[0 + 2]? =
        some 128 := by
      rw [encodeLog_cons,
        List.getElem?_append_left
          (by have := encodeFrame_ne_nil (Frame.fmt id len nB fB cB); omega)]
      simp [encodeFrame]
    rw [hid]
    dsimp only
    rw [if_pos (show (128 : Nat) = FORMAT_MSG_TYPE from rfl)]
  | data id payload =>
    have hid : (encodeLog ((Frame.data id payload) :: rest))[0 + 2]? =
        some id := by
      rw [encodeLog_cons,
        List.getElem?_append_left
          (by have := encodeFrame_ne_nil (Frame.data id payload); omega)]
      simp [encodeFrame]
    rw [hid]
    obtain ⟨hne, fd, hfd, hlenfd⟩ :=
      WFFrameB_data_elim (hV.2.1 (Frame.data id payload) (by simp))
    dsimp only
    rw [if_neg hne, hfd]
    simp only [decide_eq_true_eq]
    rw [encodeLog_cons]
    simp only [List.length_append, encodeFrame_data_length]
    omega

theorem findValidFrom_log_zero (fs : List Frame) (hV : ValidLog fs) :
    findValidFrom (encodeLog fs) (installLog fs) 0 = some 0 := by
  have hv := isValid_log_zero fs hV
  have hH : headerAt (encodeLog fs) 0 = true := (isValid_elim hv).1
  unfold findValidFrom
  rw [findValidFromAux_succ, findFrom_self hH]
  dsimp only
  rw [if_pos hv]

theorem offsetOf_def (fs : List Frame) (m : Nat) :
    offsetOf fs m = (encodeLog (fs.take m)).length := rfl

/-- Each worker's output over the chunk list concatenates, in chunk order,
to the emissions of all frames from the current boundary on. -/
theorem chunkLoop_decode (fs : List Frame) (hV : ValidLog fs)
    (mt : Option String) (cs : Nat) (hcs : 1 ≤ cs) :
    ∀ (fuel a : Nat), a ≤ fs.length →
      (encodeLog fs).length ≤ fuel + offsetOf fs a →
      ((chunkLoop (encodeLog fs) (installLog fs) cs fuel (offsetOf fs a)).map
        (fun c => parserMessages (encodeLog fs) mt (some c.2) c.1
          (installLog fs))).flatten =
        (emitSeq (installLog fs) mt (fs.drop a) (offsetOf fs a)).map Prod.snd := by
  intro fuel
  induction fuel with
  | zero =>
    intro a ha hfuel
    have haeq : a = fs.length := by
      by_contra hne
      have hlt := offsetOf_lt_offsetOf (lt_of_le_of_ne ha hne) le_rfl
      rw [offsetOf_full] at hlt
      omega
    subst haeq
    rw [List.drop_length]
    simp [chunkLoop, emitSeq]
  | succ fuel ih =>
    intro a ha hfuel
    by_cases haend : a = fs.length
    · subst haend
      rw [List.drop_length]
      have hnl : ¬ offsetOf fs fs.length < (encodeLog fs).length := by
        rw [offsetOf_full]
        omega
      rw [chunkLoop_succ, if_neg hnl]
      simp [emitSeq]
    · have halt : a < fs.length := lt_of_le_of_ne ha haend
      have hplt : offsetOf fs a < (encodeLog fs).length := by
        have := offsetOf_lt_offsetOf halt le_rfl
        rw [offsetOf_full] at this
        omega
      rw [chunkLoop_succ, if_pos hplt]
      have hrest_le : (fs.drop a).length ≤ (encodeLog fs).length + 1 := by
        have := length_le_encodeLog fs
        simp only [List.length_drop]
        omega
      have hemin : offsetOf fs a + 1 ≤
          min (offsetOf fs a + cs) (encodeLog fs).length := by
        omega
      rcases hfv : findValidFrom (encodeLog fs) (installLog fs)
          (min (offsetOf fs a + cs) (encodeLog fs).length) with _ | p'
      · simp only [Option.getD_none]
        rw [chunkLoop_at_end _ _ _ fuel _ le_rfl]
        have htake : (fs.drop a).take (fs.length - a) = fs.drop a := by
          apply List.take_of_length_le
          simp
        have hfull : (encodeLog (fs.take a ++
            (fs.drop a).take (fs.length - a))).length = (encodeLog fs).length := by
          rw [htake, List.take_append_drop]
        have hworker := scan_frames_some fs hV mt (fs.length - a) (fs.drop a)
          ((encodeLog fs).length + 1) (fs.take a) (installLog fs)
          (List.take_append_drop a fs).symm (DictOk_refl _ _) hrest_le
          (by simp) (by rw [hfull]; omega)
        rw [hfull, htake, ← offsetOf_def] at hworker
        simp only [List.map_cons, List.flatten_cons, List.map_nil,
          List.flatten_nil, List.append_nil]
        unfold parserMessages
        rw [hworker]
      · obtain ⟨he, hvp⟩ := findValidFrom_some hfv
        obtain ⟨b, hb, rfl⟩ := valid_is_frameStart hV hvp
        have hab : a < b := by
          by_contra hba
          have := @offsetOf_le_offsetOf fs b a (show b ≤ a by omega)
          omega
        have hoffb : offsetOf fs a + 1 ≤ offsetOf fs b := by omega
        have htakeab : fs.take a ++ (fs.drop a).take (b - a) = fs.take b := by
          rw [← List.take_add]
          congr 1
          omega
        have hsegoff : (encodeLog (fs.take a ++
            (fs.drop a).take (b - a))).length = offsetOf fs b := by
          rw [htakeab, ← offsetOf_def]
        have hworker := scan_frames_some fs hV mt (b - a) (fs.drop a)
          ((encodeLog fs).length + 1) (fs.take a) (installLog fs)
          (List.take_append_drop a fs).symm (DictOk_refl _ _) hrest_le
          (by simp only [List.length_drop]; omega) (by rw [hsegoff]; omega)
        rw [hsegoff, ← offsetOf_def] at hworker
        have hworkerP : parserMessages (encodeLog fs) mt
            (some (offsetOf fs b)) (offsetOf fs a) (installLog fs) =
            (emitSeq (installLog fs) mt ((fs.drop a).take (b - a))
              (offsetOf fs a)).map Prod.snd := by
          unfold parserMessages
          rw [hworker]
        have hrec := ih b hb (by omega)
        simp only [Option.getD_some, List.map_cons, List.flatten_cons]
        rw [hworkerP, hrec]
        have hsplit : fs.drop a = (fs.drop a).take (b - a) ++ fs.drop b := by
          conv_lhs => rw [← List.take_append_drop (b - a) (fs.drop a)]
          congr 1
          rw [List.drop_drop]
          congr 1
          omega
        conv_rhs => rw [hsplit]
        rw [emitSeq_append, List.map_append]
        congr 2
        rw [← offsetOf_add (le_of_lt hab)]

/-- **C1.** For every valid log, parallel decoding — a prelude FMT scan over
the whole image, chunking at valid-header boundaries, one record-decoder run
per chunk seeded with the prelude's format-definition snapshot, and
concatenation of per-chunk record lists in ascending chunk-start order —
produces exactly the record sequence of a single-threaded left-to-right scan
of the whole image with the same type filter. -/
theorem c1_parallel_equals_single_threaded (fs : List Frame) (hV : ValidLog fs)
    (W : Nat) (mt : Option String) :
    processAll (encodeLog fs) W mt =
      Except.ok (parserMessages (encodeLog fs) mt none 0 emptyDict) := by
  have hone := one_le_encodeLog hV.1
  have hlen0 : ¬ (encodeLog fs).length = 0 := by omega
  have h0 : (encodeLog ([] : List Frame)).length = 0 := rfl
  have hpre : finalDefs (encodeLog fs) (some "FMT") = installLog fs := by
    unfold finalDefs
    have hs := scan_frames_none fs hV (some "FMT") fs
      ((encodeLog fs).length + 1) [] emptyDict rfl (DictOk_empty fs hV)
      (by have := length_le_encodeLog fs; omega)
    rw [h0] at hs
    rw [hs]
    rfl
  have hsingle : parserMessages (encodeLog fs) mt none 0 emptyDict =
      (emitSeq (installLog fs) mt fs 0).map Prod.snd := by
    unfold parserMessages
    have hs := scan_frames_none fs hV mt fs ((encodeLog fs).length + 1) []
      emptyDict rfl (DictOk_empty fs hV)
      (by have := length_le_encodeLog fs; omega)
    rw [h0] at hs
    rw [hs]
  have hfv0 := findValidFrom_log_zero fs hV
  have hsplit : splitToChunks (encodeLog fs) (installLog fs) W =
      .ok (chunkLoop (encodeLog fs) (installLog fs)
        (max ((encodeLog fs).length / W) (10 * 1024 * 1024))
        ((encodeLog fs).length + 1) 0) := by
    unfold splitToChunks
    rw [if_neg hlen0]
    dsimp only
    rw [hfv0]
  have hcs : 1 ≤ max ((encodeLog fs).length / W) (10 * 1024 * 1024) :=
    le_trans (by norm_num) (Nat.le_max_right _ _)
  have hcne : chunkLoop (encodeLog fs) (installLog fs)
      (max ((encodeLog fs).length / W) (10 * 1024 * 1024))
      ((encodeLog fs).length + 1) 0 ≠ [] := by
    rw [chunkLoop_succ, if_pos (by omega)]
    simp
  have hchunk := chunkLoop_decode fs hV mt
    (max ((encodeLog fs).length / W) (10 * 1024 * 1024)) hcs
    ((encodeLog fs).length + 1) 0 (Nat.zero_le _) (by
      rw [show offsetOf fs 0 = 0 from rfl]
      omega)
  rw [show offsetOf fs 0 = 0 from rfl, List.drop_zero] at hchunk
  simp only [processAll]
  rw [hpre, hsplit]
  dsimp only
  rw [if_neg hcne]
  rw [hsingle, ← hchunk]

/-- A concrete valid log: one FORMAT frame declaring type 5 (`GPS`, length 4,
one `B` column `X`) followed by two data frames of type 5. -/
def fsWitness : List Frame :=
  [Frame.fmt 5 4 [71, 80, 83, 0] ([66] ++ List.replicate 15 0)
    ([88] ++ List.replicate 63 0),
   Frame.data 5 [255], Frame.data 5 [254]]

set_option maxRecDepth 100000 in
theorem c1_parallel_equals_single_threaded_witness :
    processAll (encodeLog fsWitness) 4 none =
      Except.ok (parserMessages (encodeLog fsWitness) none none 0 emptyDict) :=
  c1_parallel_equals_single_threaded fsWitness (by decide) 4 none

end MavLog
